import Mathlib

/-!
PoolArray: a fixed-capacity object pool over two intrusive doubly linked lists.

Shallow embedding of `include/PoolArray.h` (and of the counting helper of
`src/poolArrayTest.c`).

* A node pointer `PoolArrayNode*` is an `Option Nat`: `none` is `NULL`, `some i`
  is `&pa->nodes[i]`.
* The node storage `pa->nodes` is a `List PoolArrayNode`; reading or writing
  through `NULL` or through an index outside the storage is undefined behaviour
  in C and is the result `none` here.
* `size_t` is 64 bits wide: `Available ++`, `Available --` and the address
  computation of `userData` are taken modulo `2 ^ 64`.
* `void*` element references are addresses (`Nat`), `NULL` being address `0`.
-/

namespace Pool

/-- A pointer to a tracking node: `none` is `NULL`, `some i` is `&nodes[i]`. -/
abbrev Ptr := Option Nat

/-- The C struct `PoolArrayNode`. -/
structure PoolArrayNode where
  userData : Nat
  next : Ptr
  prev : Ptr
deriving DecidableEq, Repr

/-- The C struct `PoolArray`; `nodes` is the content of the storage block. -/
structure PoolArray where
  Available : Nat
  Size : Nat
  availableList : Ptr
  activeList : Ptr
  nodes : List PoolArrayNode
deriving DecidableEq, Repr

/-- Number of values of `size_t`. -/
def SIZE_MOD : Nat := 2 ^ 64

/-- The largest `int`. -/
def INT_MAX : Nat := 2147483647

/-- The `void*` value `NULL`. -/
def NULL : Nat := 0

/-- Read `*p`. -/
def getNode (nodes : List PoolArrayNode) (p : Ptr) : Option PoolArrayNode :=
  match p with
  | none => none
  | some i => nodes[i]?

/-- The storage after `nodes[i].next = v` (unchanged when `i` is out of range). -/
def writeNext (nodes : List PoolArrayNode) (i : Nat) (v : Ptr) : List PoolArrayNode :=
  match nodes[i]? with
  | none => nodes
  | some nd => nodes.set i { nd with next := v }

/-- The storage after `nodes[i].prev = v` (unchanged when `i` is out of range). -/
def writePrev (nodes : List PoolArrayNode) (i : Nat) (v : Ptr) : List PoolArrayNode :=
  match nodes[i]? with
  | none => nodes
  | some nd => nodes.set i { nd with prev := v }

/-- The storage after `nodes[i].userData = v` (unchanged when `i` is out of range). -/
def writeData (nodes : List PoolArrayNode) (i : Nat) (v : Nat) : List PoolArrayNode :=
  match nodes[i]? with
  | none => nodes
  | some nd => nodes.set i { nd with userData := v }

/-- The assignment `p->next = v`. -/
def setNext (nodes : List PoolArrayNode) (p : Ptr) (v : Ptr) : Option (List PoolArrayNode) :=
  match p with
  | none => none
  | some i => if i < nodes.length then some (writeNext nodes i v) else none

/-- The assignment `p->prev = v`. -/
def setPrev (nodes : List PoolArrayNode) (p : Ptr) (v : Ptr) : Option (List PoolArrayNode) :=
  match p with
  | none => none
  | some i => if i < nodes.length then some (writePrev nodes i v) else none

/-- The assignment `p->userData = v`. -/
def setData (nodes : List PoolArrayNode) (p : Ptr) (v : Nat) : Option (List PoolArrayNode) :=
  match p with
  | none => none
  | some i => if i < nodes.length then some (writeData nodes i v) else none

/-- The macro `DL_APPEND2(head,add,prev,next)`: the new head and storage. -/
def DL_APPEND2 (head add : Ptr) (nodes : List PoolArrayNode) :
    Option (Ptr × List PoolArrayNode) :=
  match head with
  | some _ => do
    let h ← getNode nodes head
    let nodes ← setPrev nodes add h.prev
    let h ← getNode nodes head
    let nodes ← setNext nodes h.prev add
    let nodes ← setPrev nodes head add
    let nodes ← setNext nodes add none
    pure (head, nodes)
  | none => do
    let head := add
    let nodes ← setPrev nodes head head
    let nodes ← setNext nodes head none
    pure (head, nodes)

/-- The macro `DL_APPEND(head,add)`. -/
def DL_APPEND (head add : Ptr) (nodes : List PoolArrayNode) :
    Option (Ptr × List PoolArrayNode) :=
  DL_APPEND2 head add nodes

/-- The macro `DL_DELETE2(head,del,prev,next)`: the new head and storage. -/
def DL_DELETE2 (head del : Ptr) (nodes : List PoolArrayNode) :
    Option (Ptr × List PoolArrayNode) := do
  let d ← getNode nodes del
  if d.prev = del then
    pure (none, nodes)
  else if del = head then do
    let nodes ← setPrev nodes d.next d.prev
    let d ← getNode nodes del
    pure (d.next, nodes)
  else do
    let nodes ← setNext nodes d.prev d.next
    let d ← getNode nodes del
    if d.next ≠ none then do
      let nodes ← setPrev nodes d.next d.prev
      pure (head, nodes)
    else do
      let nodes ← setPrev nodes head d.prev
      pure (head, nodes)

/-- The macro `DL_DELETE(head,del)`. -/
def DL_DELETE (head del : Ptr) (nodes : List PoolArrayNode) :
    Option (Ptr × List PoolArrayNode) :=
  DL_DELETE2 head del nodes

/-- One iteration of the `for` loop of `PoolArrayInit`, at index `i`. -/
def initBody (array size : Nat) (pa : PoolArray) (i : Nat) : Option PoolArray := do
  let nodes ← setNext pa.nodes (some i) none
  let nodes ← setPrev nodes (some i) none
  let nodes ← setData nodes (some i) ((array + (size * i) % SIZE_MOD) % SIZE_MOD)
  let (head, nodes) ← DL_APPEND pa.availableList (some i) nodes
  pure { pa with availableList := head, nodes := nodes }

/-- The function `PoolArrayInit`. `mem` is what `malloc` returned: `none` for
`NULL`, else the (uninitialised) content of the block, whose length is the number
of nodes the block has room for; a write past the block is `none`. The byte count
`pa->Size * sizeof(PoolArrayNode)` of the request is not part of the model: when
that product does not wrap a block that `malloc` hands out has room for `Size`
nodes. The result is the returned `bool` and the pool. -/
def PoolArrayInit (mem : Option (List PoolArrayNode)) (pa : PoolArray)
    (array size total : Nat) : Option (Bool × PoolArray) :=
  let pa := { pa with Size := total, activeList := none, availableList := none }
  match mem with
  | none => some (false, { pa with nodes := [] })
  | some block => do
    let pa := { pa with nodes := block }
    let pa ← (List.range pa.Size).foldlM (initBody array size) pa
    pure (true, { pa with Available := pa.Size })

/-- The function `PoolArrayRetireNode`. -/
def PoolArrayRetireNode (pa : PoolArray) (node : Ptr) : Option PoolArray := do
  let (act, nodes) ← DL_DELETE pa.activeList node pa.nodes
  let nodes ← setNext nodes node none
  let nodes ← setPrev nodes node none
  let (av, nodes) ← DL_APPEND pa.availableList node nodes
  pure { pa with
    activeList := act, availableList := av, nodes := nodes,
    Available := (pa.Available + 1) % SIZE_MOD }

/-- The function `PoolArrayRetireAll`; `fuel` bounds the number of iterations of
its `while` loop, and running out of fuel is `none`. -/
def PoolArrayRetireAll : Nat → PoolArray → Option PoolArray
  | fuel, pa =>
    match pa.activeList with
    | none => some pa
    | some n =>
      match fuel with
      | 0 => none
      | fuel + 1 => do
        let pa ← PoolArrayRetireNode pa (some n)
        PoolArrayRetireAll fuel pa

/-- The function `PoolArrayGetNextItem`: the returned `void*` and the pool. -/
def PoolArrayGetNextItem (pa : PoolArray) : Option (Nat × PoolArray) :=
  if pa.Available < 1 then
    some (NULL, pa)
  else do
    let node := pa.availableList
    let (av, nodes) ← DL_DELETE pa.availableList node pa.nodes
    let nodes ← setNext nodes node none
    let nodes ← setPrev nodes node none
    let (act, nodes) ← DL_APPEND pa.activeList node nodes
    let n ← getNode nodes node
    pure (n.userData, { pa with
      availableList := av, activeList := act, nodes := nodes,
      Available := (pa.Available + SIZE_MOD - 1) % SIZE_MOD })

/-- The `next` field of node `i`, when `i` is inside the storage. -/
def nextAt (nodes : List PoolArrayNode) (i : Nat) : Option Ptr :=
  (nodes[i]?).map (fun nd => nd.next)

/-- The `prev` field of node `i`, when `i` is inside the storage. -/
def prevAt (nodes : List PoolArrayNode) (i : Nat) : Option Ptr :=
  (nodes[i]?).map (fun nd => nd.prev)

/-- The `userData` field of node `i`, when `i` is inside the storage. -/
def dataAt (nodes : List PoolArrayNode) (i : Nat) : Option Nat :=
  (nodes[i]?).map (fun nd => nd.userData)

/-- Following `next` from the pointer `p` visits exactly the nodes `L`, in this
order, and then arrives at the pointer `q`. -/
def NextSeg (nodes : List PoolArrayNode) : Ptr → List Nat → Ptr → Prop
  | p, [], q => p = q
  | p, x :: xs, q => p = some x ∧ ∃ m, nextAt nodes x = some m ∧ NextSeg nodes m xs q

/-- Every node of `L` has as `prev` its predecessor in `L`, the first one has `a`. -/
def PrevLinks (nodes : List PoolArrayNode) : Nat → List Nat → Prop
  | _, [] => True
  | a, x :: xs => prevAt nodes x = some (some a) ∧ PrevLinks nodes x xs

/-- The list headed by `head` is the sequence `L`: following `next` from `head`
visits `L` and ends at `NULL`. This is the walk of `manualListCount` and of the
documented `for` loop over the active list. -/
def IsList (nodes : List PoolArrayNode) (head : Ptr) (L : List Nat) : Prop :=
  NextSeg nodes head L none

/-- A well-formed list in the tail-via-head-backlink form: the forward chain from
`head` is `L` and ends at `NULL`, the nodes are distinct, every node's `prev` is
its predecessor and the head's `prev` is the last node. -/
def DList (nodes : List PoolArrayNode) (head : Ptr) (L : List Nat) : Prop :=
  L.Nodup ∧ IsList nodes head L ∧ PrevLinks nodes (L.getLastD 0) L

/-- The function `manualListCount` of the demo; `fuel` bounds the iterations of
its loop, running out of fuel is `none`, and so is the overflow of the `int`
counter. -/
def manualListCount (nodes : List PoolArrayNode) : Nat → Ptr → Nat → Option Nat
  | _, none, a => some a
  | 0, some _, _ => none
  | fuel + 1, some i, a =>
    if a + 1 ≤ INT_MAX then
      (getNode nodes (some i)).bind fun nd => manualListCount nodes fuel nd.next (a + 1)
    else none

/-- The demo's printed `balance`: `pool.Size - (a + pool.Available)` in `size_t`. -/
def balance (pa : PoolArray) (a : Nat) : Nat :=
  (pa.Size + SIZE_MOD - (a + pa.Available) % SIZE_MOD) % SIZE_MOD

/-- The states of a pool that the API produces: a successful `PoolArrayInit` over
the element array at address `array` with elements of `size` bytes, followed by
calls of `PoolArrayGetNextItem`, of `PoolArrayRetireNode` on a node of the active
list, and of `PoolArrayRetireAll`. -/
inductive Reachable (array size : Nat) : PoolArray → Prop
  | init (block : List PoolArrayNode) (pa0 pa : PoolArray) (total : Nat)
      (hlen : block.length = total) (harray : array < SIZE_MOD) (hsize : size < SIZE_MOD)
      (htotal : total < SIZE_MOD)
      (h : PoolArrayInit (some block) pa0 array size total = some (true, pa)) :
      Reachable array size pa
  | getNextItem (pa pa' : PoolArray) (r : Nat) (hpa : Reachable array size pa)
      (h : PoolArrayGetNextItem pa = some (r, pa')) : Reachable array size pa'
  | retireNode (pa pa' : PoolArray) (A : List Nat) (n : Nat) (hpa : Reachable array size pa)
      (hA : IsList pa.nodes pa.activeList A) (hn : n ∈ A)
      (h : PoolArrayRetireNode pa (some n) = some pa') : Reachable array size pa'
  | retireAll (pa pa' : PoolArray) (fuel : Nat) (hpa : Reachable array size pa)
      (h : PoolArrayRetireAll fuel pa = some pa') : Reachable array size pa'

/-- Only the links of nodes in `S` differ between the two storages; sizes and
every `userData` are the same. -/
def Frame (S : List Nat) (nodes nodes' : List PoolArrayNode) : Prop :=
  nodes'.length = nodes.length ∧ (∀ x, dataAt nodes' x = dataAt nodes x) ∧
  (∀ x, x ∉ S → nextAt nodes' x = nextAt nodes x) ∧
  (∀ x, x ∉ S → prevAt nodes' x = prevAt nodes x)

/-- The pool invariant: `F` is the free list and `A` the active list, both well
formed; together they hold every node exactly once; `Available` counts `F`; and
node `i` refers to element `i` of the array. -/
structure Inv (array size : Nat) (pa : PoolArray) (F A : List Nat) : Prop where
  size_eq : pa.nodes.length = pa.Size
  size_lt : pa.Size < SIZE_MOD
  avail : pa.Available = F.length
  free : DList pa.nodes pa.availableList F
  active : DList pa.nodes pa.activeList A
  perm : (F ++ A).Perm (List.range pa.Size)
  data : ∀ i, i < pa.Size → dataAt pa.nodes i = some ((array + size * i) % SIZE_MOD)

/-- Retiring the nodes of a list one after the other with `PoolArrayRetireNode`. -/
def retireEach (pa : PoolArray) (ns : List Nat) : Option PoolArray :=
  ns.foldlM (fun s a => PoolArrayRetireNode s (some a)) pa

/-- The invariant of the `for` loop of `PoolArrayInit` after `k` iterations. -/
structure InitInv (array size total av0 k : Nat) (pa : PoolArray) : Prop where
  size_eq : pa.Size = total
  len : pa.nodes.length = total
  active : pa.activeList = none
  avail : pa.Available = av0
  free : DList pa.nodes pa.availableList (List.range k)
  data : ∀ i, i < k → dataAt pa.nodes i = some ((array + size * i) % SIZE_MOD)

/-- Calling `PoolArrayGetNextItem` `k` times in a row: the returned element
references, in call order, and the final pool. -/
def acquireN : Nat → PoolArray → Option (List Nat × PoolArray)
  | 0, pa => some ([], pa)
  | k + 1, pa => do
    let (r, pa1) ← PoolArrayGetNextItem pa
    let (rs, pa2) ← acquireN k pa1
    pure (r :: rs, pa2)

/-- A block of four uninitialised nodes, as `malloc` may return it. -/
def demoBlock : List PoolArrayNode := List.replicate 4 ⟨0, none, none⟩

/-- The `PoolArray` struct of the demo before `PoolArrayInit`. -/
def demoPool0 : PoolArray := ⟨0, 0, none, none, []⟩

/-- The demo pool (`poolSize` 4, `sizeof(testItem)` 8, array at address 1000)
right after `PoolArrayInit`. -/
def demoInit : PoolArray :=
  ⟨4, 4, some 0, none,
    [⟨1000, some 1, some 3⟩, ⟨1008, some 2, some 0⟩, ⟨1016, some 3, some 1⟩,
     ⟨1024, none, some 2⟩]⟩

/-- The demo pool after one `PoolArrayGetNextItem`. -/
def demoAcq1 : PoolArray :=
  ⟨3, 4, some 1, some 0,
    [⟨1000, none, some 0⟩, ⟨1008, some 2, some 3⟩, ⟨1016, some 3, some 1⟩,
     ⟨1024, none, some 2⟩]⟩

/-- The demo pool after two `PoolArrayGetNextItem`. -/
def demoAcq2 : PoolArray :=
  ⟨2, 4, some 2, some 0,
    [⟨1000, some 1, some 1⟩, ⟨1008, none, some 0⟩, ⟨1016, some 3, some 3⟩,
     ⟨1024, none, some 2⟩]⟩

/-- The demo pool after three `PoolArrayGetNextItem`. -/
def demoAcq3 : PoolArray :=
  ⟨1, 4, some 3, some 0,
    [⟨1000, some 1, some 2⟩, ⟨1008, some 2, some 0⟩, ⟨1016, none, some 1⟩,
     ⟨1024, none, some 3⟩]⟩

/-- The demo pool after four `PoolArrayGetNextItem`: used up. -/
def demoAcq4 : PoolArray :=
  ⟨0, 4, none, some 0,
    [⟨1000, some 1, some 3⟩, ⟨1008, some 2, some 0⟩, ⟨1016, some 3, some 1⟩,
     ⟨1024, none, some 2⟩]⟩

/-- The used-up demo pool after `PoolArrayRetireNode` on node 1. -/
def demoRet1 : PoolArray :=
  ⟨1, 4, some 1, some 0,
    [⟨1000, some 2, some 3⟩, ⟨1008, none, some 1⟩, ⟨1016, some 3, some 0⟩,
     ⟨1024, none, some 2⟩]⟩

/-- A list in the tail-via-head-backlink form that represents the sequence `L`:
following `next` from `head` visits `L` and ends at `NULL`, the `prev` of every
node but the first is its predecessor, and the `prev` of the first node is the
last node. -/
def WellFormedList (nodes : List PoolArrayNode) (head : Ptr) (L : List Nat) : Prop :=
  IsList nodes head L ∧ PrevLinks nodes (L.getLastD 0) L

/-- The tail-via-head-backlink form of the list `L` headed by `head`, link by
link: the list is empty exactly when `head` is `NULL`; `head` is the first node,
whose `prev` is the last node, whose `next` is `NULL`; and of two neighbours the
`next` of the first is the second and the `prev` of the second is the first. -/
def TailViaHeadBacklink (nodes : List PoolArrayNode) (head : Ptr) (L : List Nat) : Prop :=
  (L = [] ↔ head = none) ∧
  (∀ h l, L.head? = some h → L.getLast? = some l →
    head = some h ∧ prevAt nodes h = some (some l) ∧ nextAt nodes l = some none) ∧
  (∀ i a b, L[i]? = some a → L[i + 1]? = some b →
    nextAt nodes a = some (some b) ∧ prevAt nodes b = some (some a))

/-- The documented loop that retires nodes while walking the active list:
`node` starts at `activeList`; at each node the loop captures `node->next`, calls
`PoolArrayRetireNode` on the node when `p` holds for it, and goes on from the
captured pointer. The result is the nodes visited, in visiting order, and the
final pool; `fuel` bounds the iterations and running out of fuel is `none`. -/
def retireWhere (p : Nat → Bool) : Nat → Ptr → PoolArray → Option (List Nat × PoolArray)
  | _, none, pa => some ([], pa)
  | 0, some _, _ => none
  | fuel + 1, some n, pa => do
    let nd ← getNode pa.nodes (some n)
    let nextNode := nd.next
    let pa ← if p n then PoolArrayRetireNode pa (some n) else some pa
    let (visited, pa) ← retireWhere p fuel nextNode pa
    pure (n :: visited, pa)

/-- The loop of `PoolArrayRetireAll` again, which also records the node that each
iteration retires: the result is these nodes, in order, and the final pool. -/
def PoolArrayRetireAllTrace : Nat → PoolArray → Option (List Nat × PoolArray)
  | fuel, pa =>
    match pa.activeList with
    | none => some ([], pa)
    | some n =>
      match fuel with
      | 0 => none
      | fuel + 1 => do
        let pa ← PoolArrayRetireNode pa (some n)
        let (ns, pa) ← PoolArrayRetireAllTrace fuel pa
        pure (n :: ns, pa)

/-- A pool of two elements of 8 bytes at address 1000, right after
`PoolArrayInit`. -/
def pairInit : PoolArray :=
  ⟨2, 2, some 0, none, [⟨1000, some 1, some 1⟩, ⟨1008, none, some 0⟩]⟩

/-- The pool `pairInit` after one `PoolArrayGetNextItem`. -/
def pairAcq1 : PoolArray :=
  ⟨1, 2, some 1, some 0, [⟨1000, none, some 0⟩, ⟨1008, none, some 1⟩]⟩

/-- The pool `pairInit` after two `PoolArrayGetNextItem`. -/
def pairAcq2 : PoolArray :=
  ⟨0, 2, none, some 0, [⟨1000, some 1, some 1⟩, ⟨1008, none, some 0⟩]⟩

/-- The pool `pairAcq2` after `PoolArrayRetireNode` on node 0: node 0 is free, node
1 is active. -/
def pairRet0 : PoolArray :=
  ⟨1, 2, some 0, some 1, [⟨1000, none, some 0⟩, ⟨1008, none, some 1⟩]⟩

/-- A pool of three elements of 8 bytes at address 1000, right after
`PoolArrayInit`: all three nodes are free. -/
def tripleInit : PoolArray :=
  ⟨3, 3, some 0, none,
    [⟨1000, some 1, some 2⟩, ⟨1008, some 2, some 0⟩, ⟨1016, none, some 1⟩]⟩

/-- The pool `tripleInit` after `PoolArrayRetireNode` on its free node 1. -/
def tripleBad : PoolArray :=
  ⟨4, 3, some 0, none,
    [⟨1000, some 2, some 1⟩, ⟨1008, none, some 2⟩, ⟨1016, some 1, some 0⟩]⟩

/-- The two storages have the same size and the same `userData` in every node. -/
def SameData (nodes nodes' : List PoolArrayNode) : Prop :=
  nodes'.length = nodes.length ∧ ∀ i, dataAt nodes' i = dataAt nodes i

/-! ## Reading and writing the storage -/

theorem length_writeNext (nodes : List PoolArrayNode) (i : Nat) (v : Ptr) :
    (writeNext nodes i v).length = nodes.length := by
  unfold writeNext; split <;> simp

theorem length_writePrev (nodes : List PoolArrayNode) (i : Nat) (v : Ptr) :
    (writePrev nodes i v).length = nodes.length := by
  unfold writePrev; split <;> simp

theorem length_writeData (nodes : List PoolArrayNode) (i : Nat) (v : Nat) :
    (writeData nodes i v).length = nodes.length := by
  unfold writeData; split <;> simp

theorem nextAt_writeNext (nodes : List PoolArrayNode) (i j : Nat) (v : Ptr)
    (hi : i < nodes.length) :
    nextAt (writeNext nodes i v) j = if j = i then some v else nextAt nodes j := by
  unfold writeNext nextAt
  rw [List.getElem?_eq_getElem hi]
  simp only [List.getElem?_set]
  by_cases h : i = j
  · subst h; simp [hi]
  · have h' : ¬ j = i := fun e => h e.symm
    simp [h, h']

theorem prevAt_writeNext (nodes : List PoolArrayNode) (i j : Nat) (v : Ptr) :
    prevAt (writeNext nodes i v) j = prevAt nodes j := by
  unfold writeNext prevAt
  cases hnd : nodes[i]? with
  | none => rfl
  | some nd =>
    simp only [List.getElem?_set]
    by_cases h : i = j
    · subst h
      have hi : i < nodes.length := by
        rcases List.getElem?_eq_some.1 hnd with ⟨hi, _⟩; exact hi
      simp [hi, hnd]
    · simp [h]

theorem dataAt_writeNext (nodes : List PoolArrayNode) (i j : Nat) (v : Ptr) :
    dataAt (writeNext nodes i v) j = dataAt nodes j := by
  unfold writeNext dataAt
  cases hnd : nodes[i]? with
  | none => rfl
  | some nd =>
    simp only [List.getElem?_set]
    by_cases h : i = j
    · subst h
      have hi : i < nodes.length := by
        rcases List.getElem?_eq_some.1 hnd with ⟨hi, _⟩; exact hi
      simp [hi, hnd]
    · simp [h]

theorem prevAt_writePrev (nodes : List PoolArrayNode) (i j : Nat) (v : Ptr)
    (hi : i < nodes.length) :
    prevAt (writePrev nodes i v) j = if j = i then some v else prevAt nodes j := by
  unfold writePrev prevAt
  rw [List.getElem?_eq_getElem hi]
  simp only [List.getElem?_set]
  by_cases h : i = j
  · subst h; simp [hi]
  · have h' : ¬ j = i := fun e => h e.symm
    simp [h, h']

theorem nextAt_writePrev (nodes : List PoolArrayNode) (i j : Nat) (v : Ptr) :
    nextAt (writePrev nodes i v) j = nextAt nodes j := by
  unfold writePrev nextAt
  cases hnd : nodes[i]? with
  | none => rfl
  | some nd =>
    simp only [List.getElem?_set]
    by_cases h : i = j
    · subst h
      have hi : i < nodes.length := by
        rcases List.getElem?_eq_some.1 hnd with ⟨hi, _⟩; exact hi
      simp [hi, hnd]
    · simp [h]

theorem dataAt_writePrev (nodes : List PoolArrayNode) (i j : Nat) (v : Ptr) :
    dataAt (writePrev nodes i v) j = dataAt nodes j := by
  unfold writePrev dataAt
  cases hnd : nodes[i]? with
  | none => rfl
  | some nd =>
    simp only [List.getElem?_set]
    by_cases h : i = j
    · subst h
      have hi : i < nodes.length := by
        rcases List.getElem?_eq_some.1 hnd with ⟨hi, _⟩; exact hi
      simp [hi, hnd]
    · simp [h]

theorem dataAt_writeData (nodes : List PoolArrayNode) (i j : Nat) (v : Nat)
    (hi : i < nodes.length) :
    dataAt (writeData nodes i v) j = if j = i then some v else dataAt nodes j := by
  unfold writeData dataAt
  rw [List.getElem?_eq_getElem hi]
  simp only [List.getElem?_set]
  by_cases h : i = j
  · subst h; simp [hi]
  · have h' : ¬ j = i := fun e => h e.symm
    simp [h, h']

theorem nextAt_writeData (nodes : List PoolArrayNode) (i j : Nat) (v : Nat) :
    nextAt (writeData nodes i v) j = nextAt nodes j := by
  unfold writeData nextAt
  cases hnd : nodes[i]? with
  | none => rfl
  | some nd =>
    simp only [List.getElem?_set]
    by_cases h : i = j
    · subst h
      have hi : i < nodes.length := by
        rcases List.getElem?_eq_some.1 hnd with ⟨hi, _⟩; exact hi
      simp [hi, hnd]
    · simp [h]

theorem prevAt_writeData (nodes : List PoolArrayNode) (i j : Nat) (v : Nat) :
    prevAt (writeData nodes i v) j = prevAt nodes j := by
  unfold writeData prevAt
  cases hnd : nodes[i]? with
  | none => rfl
  | some nd =>
    simp only [List.getElem?_set]
    by_cases h : i = j
    · subst h
      have hi : i < nodes.length := by
        rcases List.getElem?_eq_some.1 hnd with ⟨hi, _⟩; exact hi
      simp [hi, hnd]
    · simp [h]

theorem lt_length_of_nextAt {nodes : List PoolArrayNode} {i : Nat} {v : Ptr}
    (h : nextAt nodes i = some v) : i < nodes.length := by
  unfold nextAt at h
  cases hnd : nodes[i]? with
  | none => simp [hnd] at h
  | some nd => exact (List.getElem?_eq_some.1 hnd).1

theorem lt_length_of_prevAt {nodes : List PoolArrayNode} {i : Nat} {v : Ptr}
    (h : prevAt nodes i = some v) : i < nodes.length := by
  unfold prevAt at h
  cases hnd : nodes[i]? with
  | none => simp [hnd] at h
  | some nd => exact (List.getElem?_eq_some.1 hnd).1

/-- Reading a node whose two links are known. -/
theorem getNode_links {nodes : List PoolArrayNode} {i : Nat} {a b : Ptr}
    (ha : nextAt nodes i = some a) (hb : prevAt nodes i = some b) :
    ∃ nd, getNode nodes (some i) = some nd ∧ nd.next = a ∧ nd.prev = b := by
  unfold nextAt at ha
  unfold prevAt at hb
  unfold getNode
  cases hnd : nodes[i]? with
  | none => simp [hnd] at ha
  | some nd =>
    simp only [hnd, Option.map_some', Option.some.injEq] at ha hb
    exact ⟨nd, hnd, ha, hb⟩

/-! ## Chains of `next` and `prev` links -/

@[simp] theorem NextSeg_nil {nodes : List PoolArrayNode} {p q : Ptr} :
    NextSeg nodes p [] q ↔ p = q := Iff.rfl

@[simp] theorem NextSeg_cons {nodes : List PoolArrayNode} {p q : Ptr} {x : Nat}
    {xs : List Nat} :
    NextSeg nodes p (x :: xs) q ↔
      p = some x ∧ ∃ m, nextAt nodes x = some m ∧ NextSeg nodes m xs q := Iff.rfl

@[simp] theorem PrevLinks_nil {nodes : List PoolArrayNode} {a : Nat} :
    PrevLinks nodes a [] ↔ True := Iff.rfl

@[simp] theorem PrevLinks_cons {nodes : List PoolArrayNode} {a x : Nat} {xs : List Nat} :
    PrevLinks nodes a (x :: xs) ↔
      prevAt nodes x = some (some a) ∧ PrevLinks nodes x xs := Iff.rfl

theorem NextSeg_congr {nodes nodes' : List PoolArrayNode} {L : List Nat}
    (h : ∀ x ∈ L, nextAt nodes' x = nextAt nodes x) {p q : Ptr}
    (hs : NextSeg nodes p L q) : NextSeg nodes' p L q := by
  induction L generalizing p with
  | nil => exact hs
  | cons x xs ih =>
    obtain ⟨hp, m, hm, hrest⟩ := hs
    refine ⟨hp, m, ?_, ih (fun y hy => h y (List.mem_cons_of_mem _ hy)) hrest⟩
    rw [h x (List.mem_cons_self _ _)]; exact hm

theorem NextSeg_append {nodes : List PoolArrayNode} {xs ys : List Nat} {p q : Ptr} :
    NextSeg nodes p (xs ++ ys) q ↔ ∃ m, NextSeg nodes p xs m ∧ NextSeg nodes m ys q := by
  induction xs generalizing p with
  | nil => simp
  | cons x xs ih =>
    simp only [List.cons_append, NextSeg_cons, ih]
    constructor
    · rintro ⟨hp, m, hm, m', h1, h2⟩
      exact ⟨m', ⟨hp, m, hm, h1⟩, h2⟩
    · rintro ⟨m', ⟨hp, m, hm, h1⟩, h2⟩
      exact ⟨hp, m, hm, m', h1, h2⟩

theorem NextSeg_unique {nodes : List PoolArrayNode} {L L' : List Nat} {p : Ptr}
    (h : NextSeg nodes p L none) (h' : NextSeg nodes p L' none) : L = L' := by
  induction L generalizing p L' with
  | nil =>
    cases L' with
    | nil => rfl
    | cons y ys =>
      have h1 : p = none := h
      have h2 : p = some y := h'.1
      rw [h1] at h2; cases h2
  | cons x xs ih =>
    obtain ⟨hp, m, hm, hrest⟩ := h
    cases L' with
    | nil =>
      have h1 : p = none := h'
      rw [h1] at hp; cases hp
    | cons y ys =>
      obtain ⟨hp', m', hm', hrest'⟩ := h'
      rw [hp] at hp'
      cases hp'
      rw [hm] at hm'
      cases hm'
      rw [ih hrest hrest']

theorem NextSeg_lt {nodes : List PoolArrayNode} {L : List Nat} {p q : Ptr}
    (h : NextSeg nodes p L q) {x : Nat} (hx : x ∈ L) : x < nodes.length := by
  induction L generalizing p with
  | nil => cases hx
  | cons y ys ih =>
    obtain ⟨_, m, hm, hrest⟩ := h
    rcases List.mem_cons.1 hx with rfl | hx'
    · exact lt_length_of_nextAt hm
    · exact ih hrest hx'

theorem NextSeg_head {nodes : List PoolArrayNode} {L : List Nat} {p : Ptr}
    (h : NextSeg nodes p L none) : p = L.head? := by
  cases L with
  | nil => exact h
  | cons x xs => exact h.1

theorem PrevLinks_congr {nodes nodes' : List PoolArrayNode} {L : List Nat}
    (h : ∀ x ∈ L, prevAt nodes' x = prevAt nodes x) {a : Nat}
    (hs : PrevLinks nodes a L) : PrevLinks nodes' a L := by
  induction L generalizing a with
  | nil => trivial
  | cons x xs ih =>
    obtain ⟨hx, hrest⟩ := hs
    refine ⟨?_, ih (fun y hy => h y (List.mem_cons_of_mem _ hy)) hrest⟩
    rw [h x (List.mem_cons_self _ _)]; exact hx

theorem PrevLinks_append {nodes : List PoolArrayNode} {xs ys : List Nat} {a : Nat} :
    PrevLinks nodes a (xs ++ ys) ↔
      PrevLinks nodes a xs ∧ PrevLinks nodes (xs.getLastD a) ys := by
  induction xs generalizing a with
  | nil => simp
  | cons x xs ih =>
    simp only [List.cons_append, PrevLinks_cons, ih, List.getLastD_cons, and_assoc]

/-- Changing the `prev` of the first node only. -/
theorem PrevLinks_rehead {nodes nodes' : List PoolArrayNode} {x : Nat} {xs : List Nat}
    {a a' : Nat} (hs : PrevLinks nodes a (x :: xs))
    (hx : prevAt nodes' x = some (some a'))
    (h : ∀ y ∈ xs, prevAt nodes' y = prevAt nodes y) : PrevLinks nodes' a' (x :: xs) :=
  ⟨hx, PrevLinks_congr h hs.2⟩

theorem getLastD_mem_cons (a : Nat) (xs : List Nat) : xs.getLastD a ∈ a :: xs := by
  induction xs generalizing a with
  | nil => simp
  | cons x xs ih =>
    rw [List.getLastD_cons]
    exact List.mem_cons_of_mem _ (ih x)

theorem getLastD_mem {xs : List Nat} (h : xs ≠ []) (a : Nat) : xs.getLastD a ∈ xs := by
  cases xs with
  | nil => exact absurd rfl h
  | cons x xs =>
    rw [List.getLastD_cons]
    exact getLastD_mem_cons x xs

theorem getLastD_append_cons (xs ys : List Nat) (y a : Nat) :
    (xs ++ y :: ys).getLastD a = ys.getLastD y := by
  induction xs generalizing a with
  | nil => rw [List.nil_append, List.getLastD_cons]
  | cons x xs ih => rw [List.cons_append, List.getLastD_cons, ih]

theorem Frame.refl (S : List Nat) (nodes : List PoolArrayNode) : Frame S nodes nodes :=
  ⟨rfl, fun _ => rfl, fun _ _ => rfl, fun _ _ => rfl⟩

theorem Frame.trans {S : List Nat} {n1 n2 n3 : List PoolArrayNode}
    (h12 : Frame S n1 n2) (h23 : Frame S n2 n3) : Frame S n1 n3 :=
  ⟨h23.1.trans h12.1, fun x => (h23.2.1 x).trans (h12.2.1 x),
    fun x hx => (h23.2.2.1 x hx).trans (h12.2.2.1 x hx),
    fun x hx => (h23.2.2.2 x hx).trans (h12.2.2.2 x hx)⟩

theorem Frame.mono {S T : List Nat} {n1 n2 : List PoolArrayNode}
    (h : Frame S n1 n2) (hST : ∀ x ∈ S, x ∈ T) : Frame T n1 n2 :=
  ⟨h.1, h.2.1, fun x hx => h.2.2.1 x (fun hS => hx (hST x hS)),
    fun x hx => h.2.2.2 x (fun hS => hx (hST x hS))⟩

theorem DList_frame {S L : List Nat} {nodes nodes' : List PoolArrayNode} {head : Ptr}
    (hf : Frame S nodes nodes') (hdisj : ∀ x ∈ L, x ∉ S) (h : DList nodes head L) :
    DList nodes' head L :=
  ⟨h.1, NextSeg_congr (fun x hx => hf.2.2.1 x (hdisj x hx)) h.2.1,
    PrevLinks_congr (fun x hx => hf.2.2.2 x (hdisj x hx)) h.2.2⟩

theorem Frame_writeNext (nodes : List PoolArrayNode) (i : Nat) (v : Ptr) (S : List Nat)
    (hi : i ∈ S) : Frame S nodes (writeNext nodes i v) := by
  refine ⟨length_writeNext _ _ _, fun x => dataAt_writeNext _ _ x _, ?_,
    fun x _ => prevAt_writeNext _ _ x _⟩
  · intro x hx
    by_cases hlt : i < nodes.length
    · rw [nextAt_writeNext _ _ _ _ hlt, if_neg]
      rintro rfl; exact hx hi
    · unfold writeNext
      rw [List.getElem?_eq_none (Nat.le_of_not_lt hlt)]

theorem Frame_writePrev (nodes : List PoolArrayNode) (i : Nat) (v : Ptr) (S : List Nat)
    (hi : i ∈ S) : Frame S nodes (writePrev nodes i v) := by
  refine ⟨length_writePrev _ _ _, fun x => dataAt_writePrev _ _ x _,
    fun x _ => nextAt_writePrev _ _ x _, ?_⟩
  intro x hx
  by_cases hlt : i < nodes.length
  · rw [prevAt_writePrev _ _ _ _ hlt, if_neg]
    rintro rfl; exact hx hi
  · unfold writePrev
    rw [List.getElem?_eq_none (Nat.le_of_not_lt hlt)]

/-! ## Executing the two list macros, branch by branch -/

theorem getNode_next {nodes : List PoolArrayNode} {i : Nat} {a : Ptr}
    (ha : nextAt nodes i = some a) :
    ∃ nd, getNode nodes (some i) = some nd ∧ nd.next = a := by
  unfold nextAt at ha
  unfold getNode
  cases hnd : nodes[i]? with
  | none => simp [hnd] at ha
  | some nd =>
    simp only [hnd, Option.map_some', Option.some.injEq] at ha
    exact ⟨nd, hnd, ha⟩

theorem getNode_prev {nodes : List PoolArrayNode} {i : Nat} {b : Ptr}
    (hb : prevAt nodes i = some b) :
    ∃ nd, getNode nodes (some i) = some nd ∧ nd.prev = b := by
  unfold prevAt at hb
  unfold getNode
  cases hnd : nodes[i]? with
  | none => simp [hnd] at hb
  | some nd =>
    simp only [hnd, Option.map_some', Option.some.injEq] at hb
    exact ⟨nd, hnd, hb⟩

theorem setNext_some {nodes : List PoolArrayNode} {i : Nat} (v : Ptr)
    (hi : i < nodes.length) : setNext nodes (some i) v = some (writeNext nodes i v) := by
  simp [setNext, hi]

theorem setPrev_some {nodes : List PoolArrayNode} {i : Nat} (v : Ptr)
    (hi : i < nodes.length) : setPrev nodes (some i) v = some (writePrev nodes i v) := by
  simp [setPrev, hi]

theorem DL_DELETE2_only {nodes : List PoolArrayNode} {head : Ptr} {n : Nat}
    (hp : prevAt nodes n = some (some n)) :
    DL_DELETE2 head (some n) nodes = some (none, nodes) := by
  obtain ⟨nd, hget, hndp⟩ := getNode_prev hp
  simp [DL_DELETE2, hget, hndp]

theorem DL_DELETE2_head {nodes : List PoolArrayNode} {n m l : Nat}
    (hn : nextAt nodes n = some (some m)) (hp : prevAt nodes n = some (some l))
    (hl : l ≠ n) (hm : m < nodes.length) :
    DL_DELETE2 (some n) (some n) nodes = some (some m, writePrev nodes m (some l)) := by
  obtain ⟨nd, hget, hndn, hndp⟩ := getNode_links hn hp
  have hn1 : nextAt (writePrev nodes m (some l)) n = some (some m) := by
    rw [nextAt_writePrev]; exact hn
  obtain ⟨nd1, hget1, hnd1⟩ := getNode_next hn1
  simp [DL_DELETE2, hget, hndn, hndp, hl, setPrev_some _ hm, hget1, hnd1]

theorem DL_DELETE2_mid {nodes : List PoolArrayNode} {head : Ptr} {n m p : Nat}
    (hn : nextAt nodes n = some (some m)) (hp : prevAt nodes n = some (some p))
    (hpn : p ≠ n) (hh : head ≠ some n) (hplt : p < nodes.length) (hm : m < nodes.length) :
    DL_DELETE2 head (some n) nodes =
      some (head, writePrev (writeNext nodes p (some m)) m (some p)) := by
  obtain ⟨nd, hget, hndn, hndp⟩ := getNode_links hn hp
  have hn1 : nextAt (writeNext nodes p (some m)) n = some (some m) := by
    rw [nextAt_writeNext _ _ _ _ hplt, if_neg (Ne.symm hpn)]; exact hn
  have hp1 : prevAt (writeNext nodes p (some m)) n = some (some p) := by
    rw [prevAt_writeNext]; exact hp
  obtain ⟨nd1, hget1, hnd1n, hnd1p⟩ := getNode_links hn1 hp1
  have hm1 : m < (writeNext nodes p (some m)).length := by
    rw [length_writeNext]; exact hm
  have hh' : ¬ some n = head := fun e => hh e.symm
  simp [DL_DELETE2, hget, hndn, hndp, hpn, hh', setNext_some _ hplt, hget1, hnd1n, hnd1p,
    setPrev_some _ hm1]

theorem DL_DELETE2_tail {nodes : List PoolArrayNode} {n h p : Nat}
    (hn : nextAt nodes n = some none) (hp : prevAt nodes n = some (some p))
    (hpn : p ≠ n) (hh : h ≠ n) (hplt : p < nodes.length) (hhlt : h < nodes.length) :
    DL_DELETE2 (some h) (some n) nodes =
      some (some h, writePrev (writeNext nodes p none) h (some p)) := by
  obtain ⟨nd, hget, hndn, hndp⟩ := getNode_links hn hp
  have hn1 : nextAt (writeNext nodes p none) n = some none := by
    rw [nextAt_writeNext _ _ _ _ hplt, if_neg (Ne.symm hpn)]; exact hn
  have hp1 : prevAt (writeNext nodes p none) n = some (some p) := by
    rw [prevAt_writeNext]; exact hp
  obtain ⟨nd1, hget1, hnd1n, hnd1p⟩ := getNode_links hn1 hp1
  have hh1 : h < (writeNext nodes p none).length := by
    rw [length_writeNext]; exact hhlt
  have hh' : ¬ n = h := fun e => hh e.symm
  simp [DL_DELETE2, hget, hndn, hndp, hpn, hh', setNext_some _ hplt, hget1, hnd1n, hnd1p,
    setPrev_some _ hh1]

theorem DL_APPEND2_empty {nodes : List PoolArrayNode} {n : Nat} (hn : n < nodes.length) :
    DL_APPEND2 none (some n) nodes =
      some (some n, writeNext (writePrev nodes n (some n)) n none) := by
  have h1 : n < (writePrev nodes n (some n)).length := by
    rw [length_writePrev]; exact hn
  simp [DL_APPEND2, setPrev_some _ hn, setNext_some _ h1]

theorem DL_APPEND2_nonempty {nodes : List PoolArrayNode} {h n l : Nat}
    (hp : prevAt nodes h = some (some l)) (hhn : h ≠ n) (hn : n < nodes.length)
    (hl : l < nodes.length) :
    DL_APPEND2 (some h) (some n) nodes =
      some (some h, writeNext (writePrev (writeNext (writePrev nodes n (some l)) l (some n))
        h (some n)) n none) := by
  obtain ⟨nd, hget, hndp⟩ := getNode_prev hp
  have hp1 : prevAt (writePrev nodes n (some l)) h = some (some l) := by
    rw [prevAt_writePrev _ _ _ _ hn, if_neg hhn]; exact hp
  obtain ⟨nd1, hget1, hnd1p⟩ := getNode_prev hp1
  have hh : h < nodes.length := lt_length_of_prevAt hp
  have hl1 : l < (writePrev nodes n (some l)).length := by
    rw [length_writePrev]; exact hl
  have hh2 : h < (writeNext (writePrev nodes n (some l)) l (some n)).length := by
    rw [length_writeNext, length_writePrev]; exact hh
  have hn3 : n < (writePrev (writeNext (writePrev nodes n (some l)) l (some n))
      h (some n)).length := by
    rw [length_writePrev, length_writeNext, length_writePrev]; exact hn
  simp [DL_APPEND2, hget, hndp, setPrev_some _ hn, hget1, hnd1p, setNext_some _ hl1,
    setPrev_some _ hh2, setNext_some _ hn3]

/-! ## The two list macros on well-formed lists -/

theorem exists_snoc (h : Nat) (t : List Nat) : ∃ init p, h :: t = init ++ [p] := by
  rcases List.eq_nil_or_concat (h :: t) with h0 | ⟨init, p, e⟩
  · cases h0
  · exact ⟨init, p, by simpa using e⟩

theorem DL_DELETE2_spec {nodes : List PoolArrayNode} {head : Ptr} {pre post : List Nat}
    {n : Nat} (h : DList nodes head (pre ++ n :: post)) :
    ∃ head' nodes', DL_DELETE2 head (some n) nodes = some (head', nodes') ∧
      DList nodes' head' (pre ++ post) ∧ Frame (pre ++ post) nodes nodes' := by
  obtain ⟨hnd, hnext, hprev⟩ := h
  unfold IsList at hnext
  rw [NextSeg_append] at hnext
  obtain ⟨mid, hpre, hmid, nx, hnx, hpost⟩ := hnext
  rw [PrevLinks_append, getLastD_append_cons] at hprev
  obtain ⟨hplpre, hpn, hplpost⟩ := hprev
  have hnd' : (pre ++ post).Nodup := by
    have := List.nodup_middle.1 hnd
    exact (List.nodup_cons.1 this).2
  have hn_not : n ∉ pre ++ post := by
    have := List.nodup_middle.1 hnd
    exact (List.nodup_cons.1 this).1
  have hn_pre : n ∉ pre := fun hx => hn_not (List.mem_append_left _ hx)
  have hn_post : n ∉ post := fun hx => hn_not (List.mem_append_right _ hx)
  cases pre with
  | nil =>
    have hhead : head = some n := by rw [← hmid]; exact hpre
    subst hhead
    cases post with
    | nil =>
      exact ⟨none, nodes, DL_DELETE2_only hpn, ⟨List.nodup_nil, rfl, trivial⟩, Frame.refl _ _⟩
    | cons m post' =>
      obtain ⟨hnxm, nx', hmx, hpost'⟩ := hpost
      subst hnxm
      have hpn' : prevAt nodes n = some (some (post'.getLastD m)) := by
        rw [List.getLastD_nil, List.getLastD_cons] at hpn; exact hpn
      have hl : post'.getLastD m ≠ n := by
        intro e
        exact hn_post (e ▸ getLastD_mem_cons m post')
      have hm : m < nodes.length := lt_length_of_nextAt hmx
      have hm_post : m ∉ post' := (List.nodup_cons.1 hnd').1
      refine ⟨some m, writePrev nodes m (some (post'.getLastD m)),
        DL_DELETE2_head hnx hpn' hl hm, ⟨hnd', ?_, ?_⟩, Frame_writePrev _ _ _ _ (by simp)⟩
      · exact NextSeg_congr (fun x _ => nextAt_writePrev _ _ x _) ⟨rfl, nx', hmx, hpost'⟩
      · rw [List.nil_append, List.getLastD_cons]
        refine PrevLinks_rehead hplpost ?_ ?_
        · rw [prevAt_writePrev _ _ _ _ hm, if_pos rfl]
        · intro y hy
          rw [prevAt_writePrev _ _ _ _ hm, if_neg]
          rintro rfl; exact hm_post hy
  | cons h pre' =>
    obtain ⟨init, p, hip⟩ := exists_snoc h pre'
    have hhead : head = some h := hpre.1
    subst hmid
    have hpn' : prevAt nodes n = some (some p) := by
      rw [hip, List.getLastD_concat] at hpn; exact hpn
    have hp_mem : p ∈ h :: pre' := by rw [hip]; simp
    have hpn_ne : p ≠ n := by rintro rfl; exact hn_pre hp_mem
    have hh_ne : h ≠ n := by rintro rfl; exact hn_pre (List.mem_cons_self _ _)
    have hplt : p < nodes.length := NextSeg_lt hpre hp_mem
    have hhlt : h < nodes.length := NextSeg_lt hpre (List.mem_cons_self _ _)
    have hpre2 := hpre
    rw [hip, NextSeg_append] at hpre2
    obtain ⟨m1, hinit, hm1, _, _, _⟩ := hpre2
    have hnd_pre : (h :: pre').Nodup := (List.nodup_append.1 hnd).1
    have hp_init : p ∉ init := by
      have := hnd_pre
      rw [hip] at this
      intro hx
      exact (List.nodup_append.1 this).2.2 hx (List.mem_singleton_self p)
    have hh_pre' : h ∉ pre' := (List.nodup_cons.1 hnd_pre).1
    cases post with
    | nil =>
      have hnx0 : nextAt nodes n = some none := by rw [hnx, hpost]
      refine ⟨some h, writePrev (writeNext nodes p none) h (some p), ?_, ⟨hnd', ?_, ?_⟩, ?_⟩
      · rw [hhead]; exact DL_DELETE2_tail hnx0 hpn' hpn_ne hh_ne hplt hhlt
      · unfold IsList
        rw [List.append_nil, hip, NextSeg_append]
        refine ⟨m1, NextSeg_congr ?_ (hhead ▸ hinit), hm1, none, ?_, rfl⟩
        · intro x hx
          rw [nextAt_writePrev, nextAt_writeNext _ _ _ _ hplt, if_neg]
          rintro rfl; exact hp_init hx
        · rw [nextAt_writePrev, nextAt_writeNext _ _ _ _ hplt, if_pos rfl]
      · have hlen : h < (writeNext nodes p none).length := by
          rw [length_writeNext]; exact hhlt
        rw [List.append_nil, List.getLastD_cons]
        have : pre'.getLastD h = p := by
          have := List.getLastD_concat 0 p init
          rw [← hip, List.getLastD_cons] at this; exact this
        rw [this]
        refine PrevLinks_rehead hplpre ?_ ?_
        · rw [prevAt_writePrev _ _ _ _ hlen, if_pos rfl]
        · intro y hy
          rw [prevAt_writePrev _ _ _ _ hlen, if_neg, prevAt_writeNext]
          rintro rfl; exact hh_pre' hy
      · exact Frame.trans (Frame_writeNext _ _ _ _ (by simpa using hp_mem))
          (Frame_writePrev _ _ _ _ (by simp))
    | cons m post' =>
      obtain ⟨hnxm, nx', hmx, hpost'⟩ := hpost
      subst hnxm
      have hm : m < nodes.length := lt_length_of_nextAt hmx
      have hm1' : m < (writeNext nodes p (some m)).length := by
        rw [length_writeNext]; exact hm
      have hdisj := (List.nodup_append.1 hnd').2.2
      have hnd_post : (m :: post').Nodup := (List.nodup_append.1 hnd').2.1
      have hm_post : m ∉ post' := (List.nodup_cons.1 hnd_post).1
      refine ⟨head, writePrev (writeNext nodes p (some m)) m (some p), ?_, ⟨hnd', ?_, ?_⟩, ?_⟩
      · refine DL_DELETE2_mid hnx hpn' hpn_ne ?_ hplt hm
        rw [hhead]; intro e; cases e; exact hh_ne rfl
      · unfold IsList
        rw [NextSeg_append]
        refine ⟨some m, ?_, ?_⟩
        · rw [hip, NextSeg_append]
          refine ⟨m1, NextSeg_congr ?_ hinit, hm1, some m, ?_, rfl⟩
          · intro x hx
            rw [nextAt_writePrev, nextAt_writeNext _ _ _ _ hplt, if_neg]
            rintro rfl; exact hp_init hx
          · rw [nextAt_writePrev, nextAt_writeNext _ _ _ _ hplt, if_pos rfl]
        · refine NextSeg_congr ?_ (show NextSeg nodes (some m) (m :: post') none from
            ⟨rfl, nx', hmx, hpost'⟩)
          intro x hx
          rw [nextAt_writePrev, nextAt_writeNext _ _ _ _ hplt, if_neg]
          rintro rfl; exact hdisj hp_mem hx
      · rw [getLastD_append_cons, PrevLinks_append]
        constructor
        · have hpl : PrevLinks nodes (post'.getLastD m) (h :: pre') := by
            rw [List.getLastD_cons] at hplpre; exact hplpre
          refine PrevLinks_congr ?_ hpl
          intro y hy
          rw [prevAt_writePrev _ _ _ _ hm1', if_neg, prevAt_writeNext]
          rintro rfl; exact hdisj hy (List.mem_cons_self _ _)
        · have : (h :: pre').getLastD (post'.getLastD m) = p := by
            rw [hip, List.getLastD_concat]
          rw [this]
          refine PrevLinks_rehead hplpost ?_ ?_
          · rw [prevAt_writePrev _ _ _ _ hm1', if_pos rfl]
          · intro y hy
            rw [prevAt_writePrev _ _ _ _ hm1', if_neg, prevAt_writeNext]
            rintro rfl; exact hm_post hy
      · exact Frame.trans (Frame_writeNext _ _ _ _ (List.mem_append_left _ hp_mem))
          (Frame_writePrev _ _ _ _ (by simp))
theorem DL_APPEND2_spec {nodes : List PoolArrayNode} {head : Ptr} {L : List Nat} {n : Nat}
    (h : DList nodes head L) (hn : n ∉ L) (hlt : n < nodes.length) :
    ∃ head' nodes', DL_APPEND2 head (some n) nodes = some (head', nodes') ∧
      DList nodes' head' (L ++ [n]) ∧ Frame (L ++ [n]) nodes nodes' := by
  obtain ⟨hnd, hnext, hprev⟩ := h
  have hnd' : (L ++ [n]).Nodup := by
    rw [List.nodup_append]
    refine ⟨hnd, List.nodup_singleton n, ?_⟩
    intro x hx hx'
    rw [List.mem_singleton] at hx'
    subst hx'; exact hn hx
  cases L with
  | nil =>
    have hhead : head = none := hnext
    subst hhead
    have h1 : n < (writePrev nodes n (some n)).length := by
      rw [length_writePrev]; exact hlt
    refine ⟨some n, writeNext (writePrev nodes n (some n)) n none, DL_APPEND2_empty hlt,
      ⟨hnd', ?_, ?_⟩, ?_⟩
    · exact ⟨rfl, none, by rw [nextAt_writeNext _ _ _ _ h1, if_pos rfl], rfl⟩
    · refine ⟨?_, trivial⟩
      rw [prevAt_writeNext, prevAt_writePrev _ _ _ _ hlt, if_pos rfl]
      rfl
    · exact Frame.trans (Frame_writePrev _ _ _ _ (by simp)) (Frame_writeNext _ _ _ _ (by simp))
  | cons h t =>
    have hhead : head = some h := hnext.1
    subst hhead
    obtain ⟨init, l, hil⟩ := exists_snoc h t
    have hl_eq : t.getLastD h = l := by
      have := List.getLastD_concat 0 l init
      rw [← hil, List.getLastD_cons] at this; exact this
    rw [List.getLastD_cons, hl_eq] at hprev
    have hph : prevAt nodes h = some (some l) := hprev.1
    have hl_mem : l ∈ h :: t := by rw [hil]; simp
    have hln : l ≠ n := by rintro rfl; exact hn hl_mem
    have hhn : h ≠ n := by rintro rfl; exact hn (List.mem_cons_self _ _)
    have hl_lt : l < nodes.length := NextSeg_lt hnext hl_mem
    have hh_lt : h < nodes.length := NextSeg_lt hnext (List.mem_cons_self _ _)
    have hh_t : h ∉ t := (List.nodup_cons.1 hnd).1
    have hl_init : l ∉ init := by
      have := hnd
      rw [hil] at this
      intro hx
      exact (List.nodup_append.1 this).2.2 hx (List.mem_singleton_self l)
    have e1 : (writePrev nodes n (some l)).length = nodes.length := length_writePrev _ _ _
    have e2 : (writeNext (writePrev nodes n (some l)) l (some n)).length = nodes.length := by
      rw [length_writeNext, e1]
    have e3 : (writePrev (writeNext (writePrev nodes n (some l)) l (some n))
        h (some n)).length = nodes.length := by
      rw [length_writePrev, e2]
    have hnext' : ∀ x, nextAt (writeNext (writePrev (writeNext (writePrev nodes n (some l))
        l (some n)) h (some n)) n none) x =
        if x = n then some none else if x = l then some (some n) else nextAt nodes x := by
      intro x
      rw [nextAt_writeNext _ _ _ _ (e3 ▸ hlt), nextAt_writePrev,
        nextAt_writeNext _ _ _ _ (e1 ▸ hl_lt), nextAt_writePrev]
    have hprev' : ∀ x, prevAt (writeNext (writePrev (writeNext (writePrev nodes n (some l))
        l (some n)) h (some n)) n none) x =
        if x = h then some (some n) else if x = n then some (some l) else prevAt nodes x := by
      intro x
      rw [prevAt_writeNext, prevAt_writePrev _ _ _ _ (e2 ▸ hh_lt), prevAt_writeNext,
        prevAt_writePrev _ _ _ _ hlt]
    refine ⟨some h, _, DL_APPEND2_nonempty hph hhn hlt hl_lt, ⟨hnd', ?_, ?_⟩, ?_⟩
    · unfold IsList
      rw [NextSeg_append]
      refine ⟨some n, ?_, rfl, none, ?_, rfl⟩
      · have hseg : NextSeg nodes (some h) (init ++ [l]) none := hil ▸ hnext
        rw [NextSeg_append] at hseg
        obtain ⟨m1, hinit, hm1, _, _, _⟩ := hseg
        rw [hil, NextSeg_append]
        refine ⟨m1, NextSeg_congr ?_ hinit, hm1, some n, ?_, rfl⟩
        · intro x hx
          have hxL : x ∈ h :: t := by rw [hil]; exact List.mem_append_left _ hx
          rw [hnext', if_neg, if_neg]
          · rintro rfl; exact hl_init hx
          · rintro rfl; exact hn hxL
        · rw [hnext', if_neg hln, if_pos rfl]
      · rw [hnext', if_pos rfl]
    · rw [getLastD_append_cons, List.getLastD_nil, PrevLinks_append]
      constructor
      · refine PrevLinks_rehead hprev ?_ ?_
        · rw [hprev', if_pos rfl]
        · intro y hy
          rw [hprev', if_neg, if_neg]
          · rintro rfl; exact hn (List.mem_cons_of_mem _ hy)
          · rintro rfl; exact hh_t hy
      · rw [List.getLastD_cons, hl_eq]
        refine ⟨?_, trivial⟩
        rw [hprev', if_neg (Ne.symm hhn), if_pos rfl]
    · have hnS : n ∈ h :: t ++ [n] := by simp
      have hlS : l ∈ h :: t ++ [n] := List.mem_append_left _ hl_mem
      have hhS : h ∈ h :: t ++ [n] := by simp
      exact Frame.trans (Frame.trans (Frame.trans (Frame_writePrev _ _ _ _ hnS)
        (Frame_writeNext _ _ _ _ hlS)) (Frame_writePrev _ _ _ _ hhS)) (Frame_writeNext _ _ _ _ hnS)

/-! ## The pool invariant and the operations of the pool -/

theorem getNode_data {nodes : List PoolArrayNode} {i : Nat} {d : Nat}
    (hd : dataAt nodes i = some d) :
    ∃ nd, getNode nodes (some i) = some nd ∧ nd.userData = d := by
  unfold dataAt at hd
  unfold getNode
  cases hnd : nodes[i]? with
  | none => simp [hnd] at hd
  | some nd =>
    simp only [hnd, Option.map_some', Option.some.injEq] at hd
    exact ⟨nd, hnd, hd⟩

theorem Inv.length_add {array size : Nat} {pa : PoolArray} {F A : List Nat}
    (h : Inv array size pa F A) : F.length + A.length = pa.Size := by
  have := h.perm.length_eq
  simpa using this

/-- Moving node `n` out of one well-formed list to the tail of another one, the
way `PoolArrayRetireNode` and `PoolArrayGetNextItem` both do it. -/
theorem move_spec {nodes : List PoolArrayNode} {hX hY : Ptr} {pre post Y : List Nat} {n : Nat}
    (hx : DList nodes hX (pre ++ n :: post)) (hy : DList nodes hY Y)
    (hdisj : ∀ x ∈ pre ++ n :: post, x ∉ Y) :
    ∃ hX' hY' nodes1 nodes2 nodes3 nodes',
      DL_DELETE hX (some n) nodes = some (hX', nodes1) ∧
      setNext nodes1 (some n) none = some nodes2 ∧
      setPrev nodes2 (some n) none = some nodes3 ∧
      DL_APPEND hY (some n) nodes3 = some (hY', nodes') ∧
      DList nodes' hX' (pre ++ post) ∧ DList nodes' hY' (Y ++ [n]) ∧
      nodes'.length = nodes.length ∧ (∀ x, dataAt nodes' x = dataAt nodes x) ∧
      ∀ x, x ∉ pre ++ n :: post → x ∉ Y →
        nextAt nodes' x = nextAt nodes x ∧ prevAt nodes' x = prevAt nodes x := by
  have hn_mem : n ∈ pre ++ n :: post := by simp
  have hn_lt : n < nodes.length := NextSeg_lt hx.2.1 hn_mem
  have hn_Y : n ∉ Y := hdisj n hn_mem
  have hn_not : n ∉ pre ++ post := (List.nodup_cons.1 (List.nodup_middle.1 hx.1)).1
  have hsub : ∀ x ∈ pre ++ post, x ∈ pre ++ n :: post := by
    intro x hx'
    rcases List.mem_append.1 hx' with h1 | h1
    · exact List.mem_append_left _ h1
    · exact List.mem_append_right _ (List.mem_cons_of_mem _ h1)
  obtain ⟨hX', nodes1, hdel, hdl1, hfr1⟩ := DL_DELETE2_spec hx
  have hlen1 : nodes1.length = nodes.length := hfr1.1
  have hn1 : n < nodes1.length := hlen1 ▸ hn_lt
  have hn2 : n < (writeNext nodes1 n none).length := by rw [length_writeNext]; exact hn1
  have hfr3 : Frame [n] nodes1 (writePrev (writeNext nodes1 n none) n none) :=
    Frame.trans (Frame_writeNext _ _ _ _ (by simp)) (Frame_writePrev _ _ _ _ (by simp))
  have hdl3 : DList (writePrev (writeNext nodes1 n none) n none) hX' (pre ++ post) := by
    refine DList_frame hfr3 ?_ hdl1
    intro x hx' hxn
    rw [List.mem_singleton] at hxn
    subst hxn; exact hn_not hx'
  have hy3 : DList (writePrev (writeNext nodes1 n none) n none) hY Y := by
    refine DList_frame hfr3 ?_ (DList_frame hfr1 ?_ hy)
    · intro x hx' hxn
      rw [List.mem_singleton] at hxn
      subst hxn; exact hn_Y hx'
    · intro x hx' hxp
      exact hdisj x (hsub x hxp) hx'
  have hn3 : n < (writePrev (writeNext nodes1 n none) n none).length := by
    rw [length_writePrev]; exact hn2
  obtain ⟨hY', nodes', happ, hdlY, hfr4⟩ := DL_APPEND2_spec hy3 hn_Y hn3
  refine ⟨hX', hY', nodes1, _, _, nodes', hdel, setNext_some _ hn1, setPrev_some _ hn2, happ,
    ?_, hdlY, ?_, ?_, ?_⟩
  · refine DList_frame hfr4 ?_ hdl3
    intro x hx' hxY
    rcases List.mem_append.1 hxY with h1 | h1
    · exact hdisj x (hsub x hx') h1
    · rw [List.mem_singleton] at h1
      subst h1; exact hn_not hx'
  · rw [hfr4.1, hfr3.1, hlen1]
  · intro x
    rw [hfr4.2.1, hfr3.2.1, hfr1.2.1]
  · intro x hxX hxY
    have h4 : x ∉ Y ++ [n] := by
      intro hm
      rcases List.mem_append.1 hm with h1 | h1
      · exact hxY h1
      · rw [List.mem_singleton] at h1
        subst h1; exact hxX hn_mem
    have h3 : x ∉ [n] := by
      intro hm
      rw [List.mem_singleton] at hm
      subst hm; exact hxX hn_mem
    have h1 : x ∉ pre ++ post := fun hm => hxX (hsub x hm)
    exact ⟨by rw [hfr4.2.2.1 x h4, hfr3.2.2.1 x h3, hfr1.2.2.1 x h1],
      by rw [hfr4.2.2.2 x h4, hfr3.2.2.2 x h3, hfr1.2.2.2 x h1]⟩

theorem disjoint_of_perm_range {F A : List Nat} {k : Nat}
    (h : (F ++ A).Perm (List.range k)) : ∀ x ∈ F, x ∉ A := by
  have hnd : (F ++ A).Nodup := h.nodup_iff.2 (List.nodup_range k)
  intro x hx hx'
  exact (List.nodup_append.1 hnd).2.2 hx hx'

theorem mem_lt_of_perm_range {F A : List Nat} {k : Nat}
    (h : (F ++ A).Perm (List.range k)) {x : Nat} (hx : x ∈ F ++ A) : x < k :=
  List.mem_range.1 (h.subset hx)

theorem PoolArrayGetNextItem_spec {array size : Nat} {pa : PoolArray} {h : Nat}
    {t A : List Nat} (hinv : Inv array size pa (h :: t) A) :
    ∃ pa', PoolArrayGetNextItem pa = some ((array + size * h) % SIZE_MOD, pa') ∧
      Inv array size pa' t (A ++ [h]) ∧ pa'.Available + 1 = pa.Available ∧
      pa'.Size = pa.Size := by
  have hav : pa.Available = t.length + 1 := by rw [hinv.avail]; rfl
  have hhead : pa.availableList = some h := hinv.free.2.1.1
  have hdisj := disjoint_of_perm_range hinv.perm
  have hx : DList pa.nodes pa.availableList ([] ++ h :: t) := hinv.free
  obtain ⟨hX', hY', nodes1, nodes2, nodes3, nodes', h1, h2, h3, h4, hdX, hdY, hlen, hdata, _⟩ :=
    move_spec hx hinv.active hdisj
  have hh_lt : h < pa.Size := mem_lt_of_perm_range hinv.perm (by simp)
  have hd : dataAt nodes' h = some ((array + size * h) % SIZE_MOD) := by
    rw [hdata]; exact hinv.data h hh_lt
  obtain ⟨nd, hget, hnd⟩ := getNode_data hd
  have hlenFA := hinv.length_add
  have hsz := hinv.size_lt
  have havail : (pa.Available + SIZE_MOD - 1) % SIZE_MOD = t.length := by
    have : t.length < SIZE_MOD := by
      simp only [List.length_cons] at hlenFA; omega
    rw [hav]
    have e : t.length + 1 + SIZE_MOD - 1 = t.length + SIZE_MOD := by omega
    rw [e, Nat.add_mod_right, Nat.mod_eq_of_lt this]
  rw [hhead] at h1
  refine ⟨⟨(pa.Available + SIZE_MOD - 1) % SIZE_MOD, pa.Size, hX', hY', nodes'⟩,
    ?_, ?_, ?_, ?_⟩
  · have hlt : ¬ pa.Available < 1 := by omega
    simp [PoolArrayGetNextItem, hlt, hhead, h1, h2, h3, h4, hget, hnd]
  · refine ⟨by simpa using hlen.trans hinv.size_eq, hinv.size_lt, havail, hdX, hdY, ?_, ?_⟩
    · have hp : (t ++ (A ++ [h])).Perm (h :: t ++ A) := by
        rw [← List.append_assoc]
        exact (List.perm_append_singleton h (t ++ A))
      exact hp.trans hinv.perm
    · intro i hi
      show dataAt nodes' i = _
      rw [hdata]; exact hinv.data i hi
  · show (pa.Available + SIZE_MOD - 1) % SIZE_MOD + 1 = pa.Available
    rw [havail, hav]
  · rfl

theorem PoolArrayRetireNode_spec {array size : Nat} {pa : PoolArray} {F pre post : List Nat}
    {n : Nat} (hinv : Inv array size pa F (pre ++ n :: post)) :
    ∃ pa', PoolArrayRetireNode pa (some n) = some pa' ∧
      Inv array size pa' (F ++ [n]) (pre ++ post) ∧ pa'.Available = pa.Available + 1 ∧
      pa'.Size = pa.Size := by
  have hdisj := disjoint_of_perm_range hinv.perm
  have hdisj' : ∀ x ∈ pre ++ n :: post, x ∉ F := fun x hx hF => hdisj x hF hx
  obtain ⟨hX', hY', nodes1, nodes2, nodes3, nodes', h1, h2, h3, h4, hdX, hdY, hlen, hdata, _⟩ :=
    move_spec hinv.active hinv.free hdisj'
  have hlenFA := hinv.length_add
  have hsz := hinv.size_lt
  have havail : (pa.Available + 1) % SIZE_MOD = pa.Available + 1 := by
    apply Nat.mod_eq_of_lt
    rw [hinv.avail]
    simp only [List.length_append, List.length_cons] at hlenFA
    omega
  refine ⟨⟨(pa.Available + 1) % SIZE_MOD, pa.Size, hY', hX', nodes'⟩, ?_, ?_, havail, rfl⟩
  · simp [PoolArrayRetireNode, h1, h2, h3, h4]
  · refine ⟨by simpa using hlen.trans hinv.size_eq, hinv.size_lt, ?_, hdY, hdX, ?_, ?_⟩
    · show (pa.Available + 1) % SIZE_MOD = _
      rw [havail, hinv.avail, List.length_append]; rfl
    · have hp : (F ++ [n] ++ (pre ++ post)).Perm (F ++ (pre ++ n :: post)) := by
        rw [List.append_assoc]
        have hp2 : (n :: (pre ++ post)).Perm (pre ++ n :: post) := List.perm_middle.symm
        exact List.Perm.append_left F hp2
      exact hp.trans hinv.perm
    · intro i hi
      show dataAt nodes' i = _
      rw [hdata]; exact hinv.data i hi

theorem PoolArrayRetireAll_spec {array size : Nat} {A : List Nat} :
    ∀ {pa : PoolArray} {F : List Nat}, Inv array size pa F A →
    ∃ pa', Inv array size pa' (F ++ A) [] ∧ pa'.Size = pa.Size ∧
      retireEach pa A = some pa' ∧
      ∀ fuel, PoolArrayRetireAll fuel pa = if A.length ≤ fuel then some pa' else none := by
  induction A with
  | nil =>
    intro pa F hinv
    have hhead : pa.activeList = none := hinv.active.2.1
    refine ⟨pa, by simpa using hinv, rfl, rfl, ?_⟩
    intro fuel
    cases fuel <;> simp [PoolArrayRetireAll, hhead]
  | cons a A' ih =>
    intro pa F hinv
    have hhead : pa.activeList = some a := hinv.active.2.1.1
    have hinv0 : Inv array size pa F ([] ++ a :: A') := hinv
    obtain ⟨pa1, hret, hinv1, _, hsz1⟩ := PoolArrayRetireNode_spec hinv0
    obtain ⟨pa', hinv', hsz', heach, hall⟩ := @ih pa1 (F ++ [a]) hinv1
    refine ⟨pa', by simpa using hinv', hsz'.trans hsz1, ?_, ?_⟩
    · simp [retireEach, List.foldlM_cons, hret]
      exact heach
    · intro fuel
      cases fuel with
      | zero => simp [PoolArrayRetireAll, hhead]
      | succ f =>
        rw [PoolArrayRetireAll]
        simp only [hhead, hret, Option.bind_eq_bind, Option.some_bind, hall f,
          List.length_cons, Nat.add_le_add_iff_right]

theorem DList_congr {nodes nodes' : List PoolArrayNode} {head : Ptr} {L : List Nat}
    (hn : ∀ x ∈ L, nextAt nodes' x = nextAt nodes x)
    (hp : ∀ x ∈ L, prevAt nodes' x = prevAt nodes x) (h : DList nodes head L) :
    DList nodes' head L :=
  ⟨h.1, NextSeg_congr hn h.2.1, PrevLinks_congr hp h.2.2⟩

theorem initBody_spec {array size total av0 k : Nat} {pa : PoolArray}
    (hinv : InitInv array size total av0 k pa) (hk : k < total) :
    ∃ pa', initBody array size pa k = some pa' ∧ InitInv array size total av0 (k + 1) pa' := by
  have hk0 : k < pa.nodes.length := by rw [hinv.len]; exact hk
  have hk1 : k < (writeNext pa.nodes k none).length := by rw [length_writeNext]; exact hk0
  have hk2 : k < (writePrev (writeNext pa.nodes k none) k none).length := by
    rw [length_writePrev]; exact hk1
  have hk3 : k < (writeData (writePrev (writeNext pa.nodes k none) k none) k
      ((array + (size * k) % SIZE_MOD) % SIZE_MOD)).length := by
    rw [length_writeData]; exact hk2
  have hkL : k ∉ List.range k := by simp
  have hne : ∀ x ∈ List.range k, ¬ x = k := by
    intro x hx e; subst e; exact hkL hx
  have hdl : DList (writeData (writePrev (writeNext pa.nodes k none) k none) k
      ((array + (size * k) % SIZE_MOD) % SIZE_MOD)) pa.availableList (List.range k) := by
    refine DList_congr ?_ ?_ hinv.free
    · intro x hx
      rw [nextAt_writeData, nextAt_writePrev, nextAt_writeNext _ _ _ _ hk0, if_neg (hne x hx)]
    · intro x hx
      rw [prevAt_writeData, prevAt_writePrev _ _ _ _ hk1, if_neg (hne x hx), prevAt_writeNext]
  obtain ⟨head', nodes', happ, hdl', hfr⟩ := DL_APPEND2_spec hdl hkL hk3
  refine ⟨⟨pa.Available, pa.Size, head', pa.activeList, nodes'⟩, ?_, ?_⟩
  · have hset : setData (writePrev (writeNext pa.nodes k none) k none) (some k)
        ((array + (size * k) % SIZE_MOD) % SIZE_MOD) =
        some (writeData (writePrev (writeNext pa.nodes k none) k none) k
          ((array + (size * k) % SIZE_MOD) % SIZE_MOD)) := by
      simp [setData, hk2]
    simp only [Nat.add_mod_mod] at hset happ
    simp [initBody, setNext_some _ hk0, setPrev_some _ hk1, hset, DL_APPEND, happ]
  · refine ⟨hinv.size_eq, ?_, hinv.active, hinv.avail, ?_, ?_⟩
    · show nodes'.length = total
      rw [hfr.1, length_writeData, length_writePrev, length_writeNext, hinv.len]
    · rw [List.range_succ]; exact hdl'
    · intro i hi
      show dataAt nodes' i = _
      rw [hfr.2.1, dataAt_writeData _ _ _ _ hk2]
      by_cases hik : i = k
      · subst hik
        rw [if_pos rfl, Nat.add_mod_mod]
      · rw [if_neg hik, dataAt_writePrev, dataAt_writeNext]
        exact hinv.data i (by omega)

theorem initLoop_spec {array size total av0 : Nat} {pa : PoolArray}
    (hinv : InitInv array size total av0 0 pa) (k : Nat) (hk : k ≤ total) :
    ∃ pa', (List.range k).foldlM (initBody array size) pa = some pa' ∧
      InitInv array size total av0 k pa' := by
  induction k with
  | zero => exact ⟨pa, rfl, hinv⟩
  | succ k ih =>
    obtain ⟨pa1, hfold, hinv1⟩ := ih (by omega)
    obtain ⟨pa2, hbody, hinv2⟩ := initBody_spec hinv1 (by omega)
    refine ⟨pa2, ?_, hinv2⟩
    rw [List.range_succ, List.foldlM_append, hfold]
    simp [hbody]

theorem PoolArrayInit_spec (block : List PoolArrayNode) (pa0 : PoolArray)
    (array size total : Nat) (hlen : block.length = total) (htotal : total < SIZE_MOD) :
    ∃ pa, PoolArrayInit (some block) pa0 array size total = some (true, pa) ∧
      Inv array size pa (List.range total) [] ∧ pa.Size = total ∧ pa.Available = total := by
  have h0 : InitInv array size total pa0.Available 0
      ⟨pa0.Available, total, none, none, block⟩ :=
    ⟨rfl, hlen, rfl, rfl, ⟨List.nodup_nil, rfl, trivial⟩, fun i hi => absurd hi (by omega)⟩
  obtain ⟨pa1, hfold, hinv1⟩ := initLoop_spec h0 total (Nat.le_refl _)
  refine ⟨⟨pa1.Size, pa1.Size, pa1.availableList, pa1.activeList, pa1.nodes⟩, ?_, ?_, ?_, ?_⟩
  · simp only [PoolArrayInit]
    rw [hfold]
    rfl
  · refine ⟨?_, ?_, ?_, hinv1.free, ?_, ?_, ?_⟩
    · show pa1.nodes.length = pa1.Size
      rw [hinv1.len, hinv1.size_eq]
    · show pa1.Size < SIZE_MOD
      rw [hinv1.size_eq]; exact htotal
    · show pa1.Size = (List.range total).length
      rw [hinv1.size_eq, List.length_range]
    · show DList pa1.nodes pa1.activeList []
      rw [hinv1.active]
      exact ⟨List.nodup_nil, rfl, trivial⟩
    · show (List.range total ++ []).Perm (List.range pa1.Size)
      rw [hinv1.size_eq, List.append_nil]
    · intro i hi
      have hi' : i < total := by
        have : i < pa1.Size := hi
        rw [hinv1.size_eq] at this; exact this
      exact hinv1.data i hi'
  · exact hinv1.size_eq
  · exact hinv1.size_eq

theorem initBody_anySize (array size i av s s' : Nat) (h a : Ptr)
    (nodes : List PoolArrayNode) :
    initBody array size ⟨av, s, h, a, nodes⟩ i =
      (initBody array size ⟨av, s', h, a, nodes⟩ i).map
        (fun p => ⟨p.Available, s, p.availableList, p.activeList, p.nodes⟩) := by
  unfold initBody
  simp only [Option.bind_eq_bind, Option.pure_def]
  cases setNext nodes (some i) none with
  | none => rfl
  | some n1 =>
    simp only [Option.some_bind]
    cases setPrev n1 (some i) none with
    | none => rfl
    | some n2 =>
      simp only [Option.some_bind]
      cases setData n2 (some i) ((array + size * i % SIZE_MOD) % SIZE_MOD) with
      | none => rfl
      | some n3 =>
        simp only [Option.some_bind]
        cases DL_APPEND h (some i) n3 with
        | none => rfl
        | some r => rfl

theorem initLoop_anySize (array size : Nat) (L : List Nat) :
    ∀ (av s s' : Nat) (h a : Ptr) (nodes : List PoolArrayNode),
      L.foldlM (initBody array size) ⟨av, s, h, a, nodes⟩ =
        (L.foldlM (initBody array size) ⟨av, s', h, a, nodes⟩).map
          (fun p => ⟨p.Available, s, p.availableList, p.activeList, p.nodes⟩) := by
  induction L with
  | nil => intro av s s' h a nodes; rfl
  | cons i L ih =>
    intro av s s' h a nodes
    rw [List.foldlM_cons, List.foldlM_cons, initBody_anySize array size i av s s' h a nodes]
    cases initBody array size ⟨av, s', h, a, nodes⟩ i with
    | none => rfl
    | some p =>
      simp only [Option.map_some', Option.bind_eq_bind, Option.some_bind]
      exact ih p.Available s p.Size p.availableList p.activeList p.nodes

/-- A block with room for fewer than `total` nodes, which is what `malloc` hands
out when the size product `pa->Size * sizeof(PoolArrayNode)` has wrapped, makes
the loop of `PoolArrayInit` write past the block: undefined behaviour. -/
theorem PoolArrayInit_short_block (block : List PoolArrayNode) (pa0 : PoolArray)
    (array size total : Nat) (hshort : block.length < total) :
    PoolArrayInit (some block) pa0 array size total = none := by
  obtain ⟨d, hd⟩ : ∃ d, total = block.length + (d + 1) := ⟨total - block.length - 1, by omega⟩
  have h0 : InitInv array size block.length pa0.Available 0
      ⟨pa0.Available, block.length, none, none, block⟩ :=
    ⟨rfl, rfl, rfl, rfl, ⟨List.nodup_nil, rfl, trivial⟩, fun i hi => absurd hi (by omega)⟩
  obtain ⟨pa1, hfold, hinv1⟩ := initLoop_spec h0 block.length (Nat.le_refl _)
  have hlen1 : pa1.nodes.length = block.length := hinv1.len
  have hfold' : (List.range block.length).foldlM (initBody array size)
      ⟨pa0.Available, total, none, none, block⟩ =
      some ⟨pa1.Available, total, pa1.availableList, pa1.activeList, pa1.nodes⟩ := by
    rw [initLoop_anySize array size _ pa0.Available total block.length none none block, hfold]
    rfl
  have hbody : initBody array size
      ⟨pa1.Available, total, pa1.availableList, pa1.activeList, pa1.nodes⟩ block.length =
      none := by
    have hno : ¬ block.length < pa1.nodes.length := by omega
    simp [initBody, setNext, hno]
  simp only [PoolArrayInit]
  rw [hd, List.range_add, List.range_succ_eq_map, List.map_cons, List.foldlM_append, ← hd,
    hfold']
  simp only [Option.bind_eq_bind, Option.some_bind, List.foldlM_cons, Nat.add_zero, hbody,
    Option.none_bind]

theorem Reachable_inv {array size : Nat} {pa : PoolArray} (h : Reachable array size pa) :
    ∃ F A, Inv array size pa F A := by
  induction h with
  | init block pa0 pa total hlen harray hsize htotal h =>
    obtain ⟨pa1, hinit, hinv, _, _⟩ := PoolArrayInit_spec block pa0 array size total hlen htotal
    rw [hinit] at h
    cases h
    exact ⟨_, _, hinv⟩
  | getNextItem pa pa' r hpa h ih =>
    obtain ⟨F, A, hinv⟩ := ih
    cases F with
    | nil =>
      have hav : pa.Available = 0 := hinv.avail
      simp [PoolArrayGetNextItem, hav] at h
      rw [← h.2]
      exact ⟨_, _, hinv⟩
    | cons x t =>
      obtain ⟨pa1, hget, hinv1, _, _⟩ := PoolArrayGetNextItem_spec hinv
      rw [hget] at h
      cases h
      exact ⟨_, _, hinv1⟩
  | retireNode pa pa' A' n hpa hA hn h ih =>
    obtain ⟨F, A, hinv⟩ := ih
    have hAA : A' = A := NextSeg_unique hA hinv.active.2.1
    subst hAA
    obtain ⟨pre, post, rfl⟩ := List.append_of_mem hn
    obtain ⟨pa1, hret, hinv1, _, _⟩ := PoolArrayRetireNode_spec hinv
    rw [hret] at h
    cases h
    exact ⟨_, _, hinv1⟩
  | retireAll pa pa' fuel hpa h ih =>
    obtain ⟨F, A, hinv⟩ := ih
    obtain ⟨pa1, hinv1, _, _, hall⟩ := PoolArrayRetireAll_spec hinv
    rw [hall fuel] at h
    by_cases hf : A.length ≤ fuel
    · rw [if_pos hf] at h
      cases h
      exact ⟨_, _, hinv1⟩
    · rw [if_neg hf] at h
      cases h

/-! ## Reachable states -/

theorem Reachable_inv_of_lists {array size : Nat} {pa : PoolArray} {F A : List Nat}
    (hr : Reachable array size pa) (hF : IsList pa.nodes pa.availableList F)
    (hA : IsList pa.nodes pa.activeList A) : Inv array size pa F A := by
  obtain ⟨F1, A1, hinv⟩ := Reachable_inv hr
  have e1 : F = F1 := NextSeg_unique hF hinv.free.2.1
  have e2 : A = A1 := NextSeg_unique hA hinv.active.2.1
  rw [e1, e2]; exact hinv

theorem manualListCount_spec {nodes : List PoolArrayNode} {L : List Nat} :
    ∀ {head : Ptr} (fuel a : Nat), IsList nodes head L → L.length ≤ fuel →
      a + L.length ≤ INT_MAX → manualListCount nodes fuel head a = some (a + L.length) := by
  induction L with
  | nil =>
    intro head fuel a hL _ _
    have hhead : head = none := hL
    subst hhead
    cases fuel <;> simp [manualListCount]
  | cons x xs ih =>
    intro head fuel a hL hfuel ha
    obtain ⟨hhead, m, hm, hrest⟩ := hL
    subst hhead
    obtain ⟨nd, hget, hnd⟩ := getNode_next hm
    cases fuel with
    | zero => simp at hfuel
    | succ f =>
      simp only [List.length_cons] at hfuel ha
      have h1 : a + 1 ≤ INT_MAX := by omega
      have := @ih m f (a + 1) hrest (by omega) (by omega)
      simp only [manualListCount, h1, if_true, hget, Option.some_bind, hnd, this,
        List.length_cons]
      congr 1; omega

theorem demoInit_reachable : Reachable 1000 8 demoInit :=
  Reachable.init demoBlock demoPool0 demoInit 4 rfl (by decide) (by decide) (by decide)
    (by decide)

theorem demoAcq1_reachable : Reachable 1000 8 demoAcq1 :=
  Reachable.getNextItem demoInit demoAcq1 1000 demoInit_reachable (by decide)

theorem demoAcq2_reachable : Reachable 1000 8 demoAcq2 :=
  Reachable.getNextItem demoAcq1 demoAcq2 1008 demoAcq1_reachable (by decide)

theorem demoAcq3_reachable : Reachable 1000 8 demoAcq3 :=
  Reachable.getNextItem demoAcq2 demoAcq3 1016 demoAcq2_reachable (by decide)

theorem demoAcq4_reachable : Reachable 1000 8 demoAcq4 :=
  Reachable.getNextItem demoAcq3 demoAcq4 1024 demoAcq3_reachable (by decide)

theorem demoAcq4_active : IsList demoAcq4.nodes demoAcq4.activeList [0, 1, 2, 3] := by
  simp [IsList, demoAcq4, nextAt]

theorem demoRet1_reachable : Reachable 1000 8 demoRet1 :=
  Reachable.retireNode demoAcq4 demoRet1 [0, 1, 2, 3] 1 demoAcq4_reachable demoAcq4_active
    (by decide) (by decide)

theorem getNextItem_exhausted (pa : PoolArray) (h : pa.Available = ([] : List Nat).length) :
    PoolArrayGetNextItem pa = some (NULL, pa) := by
  have h0 : pa.Available = 0 := h
  simp [PoolArrayGetNextItem, h0]

/-! ## The claims -/

/-- C1 (capacity conservation): in every reachable state `Available` plus the
number of nodes met by following `next` from `activeList` equals `Size`; and, the
pool being small enough for the `int` counter, `manualListCount` returns that
number and the demo's `balance` is 0. -/
theorem C1_capacity_conservation (array size : Nat) (pa : PoolArray)
    (h : Reachable array size pa) :
    (∃ A, IsList pa.nodes pa.activeList A ∧ pa.Available + A.length = pa.Size) ∧
    (pa.Size ≤ INT_MAX → ∀ fuel, pa.Size ≤ fuel →
      ∃ a, manualListCount pa.nodes fuel pa.activeList 0 = some a ∧
        pa.Available + a = pa.Size ∧ balance pa a = 0) := by
  obtain ⟨F, A, hinv⟩ := Reachable_inv h
  have hsum : pa.Available + A.length = pa.Size := by
    rw [hinv.avail]; exact hinv.length_add
  refine ⟨⟨A, hinv.active.2.1, hsum⟩, ?_⟩
  intro hint fuel hfuel
  refine ⟨A.length, ?_, hsum, ?_⟩
  · have := manualListCount_spec fuel 0 hinv.active.2.1 (by omega) (by omega)
    simpa using this
  · have hlt := hinv.size_lt
    unfold balance
    rw [Nat.add_comm A.length, hsum, Nat.mod_eq_of_lt hlt]
    have e : pa.Size + SIZE_MOD - pa.Size = SIZE_MOD := by omega
    rw [e, Nat.mod_self]

/-- Witness of C1 on the demo pool after four acquisitions and one retirement. -/
theorem C1_capacity_conservation_witness :
    Reachable 1000 8 demoRet1 ∧
    ((∃ A, IsList demoRet1.nodes demoRet1.activeList A ∧
        demoRet1.Available + A.length = demoRet1.Size) ∧
     (demoRet1.Size ≤ INT_MAX → ∀ fuel, demoRet1.Size ≤ fuel →
      ∃ a, manualListCount demoRet1.nodes fuel demoRet1.activeList 0 = some a ∧
        demoRet1.Available + a = demoRet1.Size ∧ balance demoRet1 a = 0)) :=
  ⟨demoRet1_reachable, C1_capacity_conservation 1000 8 demoRet1 demoRet1_reachable⟩

/-- C2 (exclusive membership): in every reachable state the storage holds `Size`
nodes, the two lists hold only these, and each of them occurs exactly once in
exactly one of the two lists. -/
theorem C2_exclusive_membership (array size : Nat) (pa : PoolArray)
    (h : Reachable array size pa) :
    pa.nodes.length = pa.Size ∧
    ∃ F A, IsList pa.nodes pa.availableList F ∧ IsList pa.nodes pa.activeList A ∧
      (∀ i, i ∈ F ++ A → i < pa.Size) ∧
      ∀ i, i < pa.Size →
        (F.count i = 1 ∧ A.count i = 0) ∨ (F.count i = 0 ∧ A.count i = 1) := by
  obtain ⟨F, A, hinv⟩ := Reachable_inv h
  refine ⟨hinv.size_eq, F, A, hinv.free.2.1, hinv.active.2.1, ?_, ?_⟩
  · intro i hi
    exact mem_lt_of_perm_range hinv.perm hi
  · intro i hi
    have hc : (F ++ A).count i = 1 := by
      rw [hinv.perm.count_eq]
      exact List.count_eq_one_of_mem (List.nodup_range _) (List.mem_range.2 hi)
    rw [List.count_append] at hc
    omega

/-- Witness of C2 on the demo pool after four acquisitions and one retirement. -/
theorem C2_exclusive_membership_witness :
    Reachable 1000 8 demoRet1 ∧
    (demoRet1.nodes.length = demoRet1.Size ∧
    ∃ F A, IsList demoRet1.nodes demoRet1.availableList F ∧
      IsList demoRet1.nodes demoRet1.activeList A ∧
      (∀ i, i ∈ F ++ A → i < demoRet1.Size) ∧
      ∀ i, i < demoRet1.Size →
        (F.count i = 1 ∧ A.count i = 0) ∨ (F.count i = 0 ∧ A.count i = 1)) :=
  ⟨demoRet1_reachable, C2_exclusive_membership 1000 8 demoRet1 demoRet1_reachable⟩

/-- C3 (exhaustion is pure): on any pool with `Available == 0`,
`PoolArrayGetNextItem` returns `NULL` and the pool is exactly the one given. -/
theorem C3_exhaustion_is_pure (pa : PoolArray) (h : pa.Available = 0) :
    PoolArrayGetNextItem pa = some (NULL, pa) := by
  simp [PoolArrayGetNextItem, h]

/-- Witness of C3 on the used-up demo pool. -/
theorem C3_exhaustion_is_pure_witness :
    demoAcq4.Available = 0 ∧ PoolArrayGetNextItem demoAcq4 = some (NULL, demoAcq4) :=
  ⟨rfl, C3_exhaustion_is_pure demoAcq4 rfl⟩

/-- C4 (acquire postcondition): in a reachable state with free list `h :: t` and
active list `A`, `PoolArrayGetNextItem` returns the `userData` of `h`; afterwards
the free list is `t`, the active list is `A ++ [h]` and `Available` is one less. -/
theorem C4_acquire_postcondition (array size : Nat) (pa : PoolArray) (h : Nat)
    (t A : List Nat) (hr : Reachable array size pa)
    (hF : IsList pa.nodes pa.availableList (h :: t))
    (hA : IsList pa.nodes pa.activeList A) :
    1 ≤ pa.Available ∧
    ∃ d pa', dataAt pa.nodes h = some d ∧ PoolArrayGetNextItem pa = some (d, pa') ∧
      IsList pa'.nodes pa'.availableList t ∧ IsList pa'.nodes pa'.activeList (A ++ [h]) ∧
      pa'.Available + 1 = pa.Available := by
  have hinv := Reachable_inv_of_lists hr hF hA
  obtain ⟨pa', hget, hinv', hav, _⟩ := PoolArrayGetNextItem_spec hinv
  have hh : h < pa.Size := mem_lt_of_perm_range hinv.perm (by simp)
  refine ⟨by omega, _, pa', hinv.data h hh, hget, hinv'.free.2.1, hinv'.active.2.1, hav⟩

/-- Witness of C4 on the demo pool after two acquisitions. -/
theorem C4_acquire_postcondition_witness :
    Reachable 1000 8 demoAcq2 ∧ IsList demoAcq2.nodes demoAcq2.availableList [2, 3] ∧
    IsList demoAcq2.nodes demoAcq2.activeList [0, 1] ∧
    (1 ≤ demoAcq2.Available ∧
    ∃ d pa', dataAt demoAcq2.nodes 2 = some d ∧
      PoolArrayGetNextItem demoAcq2 = some (d, pa') ∧
      IsList pa'.nodes pa'.availableList [3] ∧
      IsList pa'.nodes pa'.activeList ([0, 1] ++ [2]) ∧
      pa'.Available + 1 = demoAcq2.Available) :=
  ⟨demoAcq2_reachable, by simp [IsList, demoAcq2, nextAt],
    by simp [IsList, demoAcq2, nextAt],
    C4_acquire_postcondition 1000 8 demoAcq2 2 [3] [0, 1] demoAcq2_reachable
      (by simp [IsList, demoAcq2, nextAt]) (by simp [IsList, demoAcq2, nextAt])⟩

/-- C5 (retire postcondition): in a reachable state with active list
`pre ++ [n] ++ post` and free list `F`, `PoolArrayRetireNode` on `n` leaves the
active list `pre ++ post` and the free list `F ++ [n]`, and `Available` is one
more. -/
theorem C5_retire_postcondition (array size : Nat) (pa : PoolArray) (n : Nat)
    (pre post F : List Nat) (hr : Reachable array size pa)
    (hA : IsList pa.nodes pa.activeList (pre ++ [n] ++ post))
    (hF : IsList pa.nodes pa.availableList F) :
    ∃ pa', PoolArrayRetireNode pa (some n) = some pa' ∧
      IsList pa'.nodes pa'.activeList (pre ++ post) ∧
      IsList pa'.nodes pa'.availableList (F ++ [n]) ∧
      pa'.Available = pa.Available + 1 := by
  have hA' : IsList pa.nodes pa.activeList (pre ++ n :: post) := by
    simpa using hA
  have hinv := Reachable_inv_of_lists hr hF hA'
  obtain ⟨pa', hret, hinv', hav, _⟩ := PoolArrayRetireNode_spec hinv
  exact ⟨pa', hret, hinv'.active.2.1, hinv'.free.2.1, hav⟩

/-- Witness of C5: retiring the interior node 1 of the used-up demo pool. -/
theorem C5_retire_postcondition_witness :
    Reachable 1000 8 demoAcq4 ∧
    IsList demoAcq4.nodes demoAcq4.activeList ([0] ++ [1] ++ [2, 3]) ∧
    IsList demoAcq4.nodes demoAcq4.availableList [] ∧
    ∃ pa', PoolArrayRetireNode demoAcq4 (some 1) = some pa' ∧
      IsList pa'.nodes pa'.activeList ([0] ++ [2, 3]) ∧
      IsList pa'.nodes pa'.availableList ([] ++ [1]) ∧
      pa'.Available = demoAcq4.Available + 1 :=
  ⟨demoAcq4_reachable, demoAcq4_active, rfl,
    C5_retire_postcondition 1000 8 demoAcq4 1 [0] [2, 3] [] demoAcq4_reachable
      demoAcq4_active rfl⟩

/-- Inside an array of `n` elements of `size` bytes at `base` that lies in the
address space, the address of element `i` is below `2 ^ 64`. -/
theorem elem_lt_of_fit {base size n i : Nat} (hbase : base < SIZE_MOD)
    (hfit : base + n * size ≤ SIZE_MOD) (hi : i < n) : base + i * size < SIZE_MOD := by
  rcases Nat.eq_zero_or_pos size with h0 | hpos
  · rw [h0, Nat.mul_zero, Nat.add_zero]; exact hbase
  · have h1 : i * size < n * size := Nat.mul_lt_mul_of_pos_right hi hpos
    omega

theorem Reachable_base_lt {base size : Nat} {pa : PoolArray}
    (h : Reachable base size pa) : base < SIZE_MOD := by
  induction h with
  | init block pa0 pa total hlen harray hsize htotal h => exact harray
  | getNextItem pa pa' r hpa h ih => exact ih
  | retireNode pa pa' A n hpa hA hn h ih => exact ih
  | retireAll pa pa' fuel hpa h ih => exact ih

theorem acquireN_spec {array size : Nat} :
    ∀ (k : Nat) {pa : PoolArray} {F A : List Nat}, Inv array size pa F A → k ≤ F.length →
    ∃ pa', acquireN k pa =
        some ((F.take k).map (fun x => (array + size * x) % SIZE_MOD), pa') ∧
      Inv array size pa' (F.drop k) (A ++ F.take k) ∧ pa'.Size = pa.Size := by
  intro k
  induction k with
  | zero =>
    intro pa F A hinv _
    exact ⟨pa, rfl, by simpa using hinv, rfl⟩
  | succ k ih =>
    intro pa F A hinv hk
    cases F with
    | nil => simp at hk
    | cons h t =>
      obtain ⟨pa1, hget, hinv1, _, hsz1⟩ := PoolArrayGetNextItem_spec hinv
      have hk' : k ≤ t.length := by simpa using hk
      obtain ⟨pa', hacq, hinv', hsz'⟩ := @ih pa1 t (A ++ [h]) hinv1 hk'
      refine ⟨pa', ?_, ?_, hsz'.trans hsz1⟩
      · simp [acquireN, hget, hacq]
      · simpa using hinv'

theorem retireEach_spec {array size : Nat} :
    ∀ (ns : List Nat) {pa : PoolArray} {F A : List Nat}, Inv array size pa F A →
    ns.Nodup → (∀ x ∈ ns, x ∈ A) →
    ∃ pa' A', retireEach pa ns = some pa' ∧ Inv array size pa' (F ++ ns) A' := by
  intro ns
  induction ns with
  | nil =>
    intro pa F A hinv _ _
    exact ⟨pa, A, rfl, by simpa using hinv⟩
  | cons n ns ih =>
    intro pa F A hinv hnd hmem
    obtain ⟨pre, post, rfl⟩ := List.append_of_mem (hmem n (List.mem_cons_self _ _))
    obtain ⟨pa1, hret, hinv1, _, _⟩ := PoolArrayRetireNode_spec hinv
    have hn_ns : n ∉ ns := (List.nodup_cons.1 hnd).1
    have hmem' : ∀ x ∈ ns, x ∈ pre ++ post := by
      intro x hx
      have hxA := hmem x (List.mem_cons_of_mem _ hx)
      have hxn : x ≠ n := by rintro rfl; exact hn_ns hx
      rcases List.mem_append.1 hxA with h1 | h1
      · exact List.mem_append_left _ h1
      · rcases List.mem_cons.1 h1 with h2 | h2
        · exact absurd h2 hxn
        · exact List.mem_append_right _ h2
    obtain ⟨pa', A', heach, hinv'⟩ :=
      @ih pa1 (F ++ [n]) (pre ++ post) hinv1 (List.nodup_cons.1 hnd).2 hmem'
    refine ⟨pa', A', ?_, by simpa using hinv'⟩
    simp only [retireEach, List.foldlM_cons, hret, Option.bind_eq_bind, Option.some_bind]
    exact heach

theorem Inv.data_map {array size : Nat} {pa : PoolArray} {F A : List Nat}
    (hinv : Inv array size pa F A) (L : List Nat) (hL : ∀ x ∈ L, x < pa.Size) :
    (L.map (fun x => (array + size * x) % SIZE_MOD)).map some = L.map (dataAt pa.nodes) := by
  rw [List.map_map]
  apply List.map_congr_left
  intro x hx
  exact (hinv.data x (hL x hx)).symm

/-- C6 (FIFO reuse): in a reachable state with free list `F` and active list `A`,
`k` acquisitions in a row return the elements of the first `k` nodes of `F`, in the
order of `F`; retiring nodes of `A` one after the other puts them behind `F` in
the order of their retirement. And with capacity 4, four acquisitions after the
initialisation return elements 0, 1, 2, 3; after retiring node 1 and then node 0
two acquisitions return element 1 and then element 0. -/
theorem C6_fifo_reuse (array size : Nat) (pa : PoolArray) (F A : List Nat)
    (hr : Reachable array size pa) (hF : IsList pa.nodes pa.availableList F)
    (hA : IsList pa.nodes pa.activeList A) :
    (∀ k, k ≤ F.length → ∃ rs pa', acquireN k pa = some (rs, pa') ∧
        rs.map some = (F.take k).map (dataAt pa.nodes)) ∧
    (∀ ns : List Nat, ns.Nodup → (∀ x ∈ ns, x ∈ A) →
      ∃ pa', retireEach pa ns = some pa' ∧ IsList pa'.nodes pa'.availableList (F ++ ns)) ∧
    (∀ (block : List PoolArrayNode) (pa0 : PoolArray) (base sz : Nat), block.length = 4 →
      ∃ p1 r1 p2 p3 r2 p4, PoolArrayInit (some block) pa0 base sz 4 = some (true, p1) ∧
        acquireN 4 p1 = some (r1, p2) ∧ r1.map some = [0, 1, 2, 3].map (dataAt p1.nodes) ∧
        retireEach p2 [1, 0] = some p3 ∧
        acquireN 2 p3 = some (r2, p4) ∧ r2.map some = [1, 0].map (dataAt p1.nodes)) := by
  have hinv := Reachable_inv_of_lists hr hF hA
  refine ⟨?_, ?_, ?_⟩
  · intro k hk
    obtain ⟨pa', hacq, _, _⟩ := acquireN_spec k hinv hk
    refine ⟨_, pa', hacq, hinv.data_map _ ?_⟩
    intro x hx
    exact mem_lt_of_perm_range hinv.perm (List.mem_append_left _ (List.mem_of_mem_take hx))
  · intro ns hnd hmem
    obtain ⟨pa', A', heach, hinv'⟩ := retireEach_spec ns hinv hnd hmem
    exact ⟨pa', heach, hinv'.free.2.1⟩
  · intro block pa0 base sz hlen
    have h4 : (4 : Nat) < SIZE_MOD := by decide
    obtain ⟨p1, hinit, hinv1, hsz1, _⟩ := PoolArrayInit_spec block pa0 base sz 4 hlen h4
    have hr4 : List.range 4 = [0, 1, 2, 3] := by decide
    rw [hr4] at hinv1
    obtain ⟨p2, hacq, hinv2, _⟩ := acquireN_spec 4 hinv1 (by simp)
    have hinv2' : Inv base sz p2 [] [0, 1, 2, 3] := by simpa using hinv2
    obtain ⟨p3, A3, heach, hinv3⟩ :=
      retireEach_spec [1, 0] hinv2' (by decide) (by decide)
    obtain ⟨p4, hacq2, _, _⟩ := acquireN_spec 2 hinv3 (by simp)
    refine ⟨p1, _, p2, p3, _, p4, hinit, hacq, ?_, heach, hacq2, ?_⟩
    · exact hinv1.data_map _ (by rw [hsz1]; decide)
    · exact hinv1.data_map _ (by rw [hsz1]; decide)

/-- Witness of C6 on the demo pool after two acquisitions. -/
theorem C6_fifo_reuse_witness :
    Reachable 1000 8 demoAcq2 ∧ IsList demoAcq2.nodes demoAcq2.availableList [2, 3] ∧
    IsList demoAcq2.nodes demoAcq2.activeList [0, 1] ∧
    ((∀ k, k ≤ [2, 3].length → ∃ rs pa', acquireN k demoAcq2 = some (rs, pa') ∧
        rs.map some = (([2, 3] : List Nat).take k).map (dataAt demoAcq2.nodes)) ∧
    (∀ ns : List Nat, ns.Nodup → (∀ x ∈ ns, x ∈ [0, 1]) →
      ∃ pa', retireEach demoAcq2 ns = some pa' ∧
        IsList pa'.nodes pa'.availableList ([2, 3] ++ ns)) ∧
    (∀ (block : List PoolArrayNode) (pa0 : PoolArray) (base sz : Nat), block.length = 4 →
      ∃ p1 r1 p2 p3 r2 p4, PoolArrayInit (some block) pa0 base sz 4 = some (true, p1) ∧
        acquireN 4 p1 = some (r1, p2) ∧ r1.map some = [0, 1, 2, 3].map (dataAt p1.nodes) ∧
        retireEach p2 [1, 0] = some p3 ∧
        acquireN 2 p3 = some (r2, p4) ∧ r2.map some = [1, 0].map (dataAt p1.nodes))) :=
  ⟨demoAcq2_reachable, by simp [IsList, demoAcq2, nextAt],
    by simp [IsList, demoAcq2, nextAt],
    C6_fifo_reuse 1000 8 demoAcq2 [2, 3] [0, 1] demoAcq2_reachable
      (by simp [IsList, demoAcq2, nextAt]) (by simp [IsList, demoAcq2, nextAt])⟩

/-- C7 (initialize postcondition): when the node-storage allocation succeeds,
that is `malloc` hands out a block of `n` nodes, `PoolArrayInit` returns true;
`Size` and `Available` are `n`, the active list is empty, the free list is nodes
`0, 1, ..., n-1` in index order; and, `base` being the address of an array of `n`
elements of `size` bytes (an object inside the address space: `base < 2 ^ 64` and
`base + n * size ≤ 2 ^ 64`), the `userData` of node `i` is `base + i * size` for
every `i < n`. -/
theorem C7_init_postcondition (block : List PoolArrayNode) (pa0 : PoolArray)
    (base size n : Nat) (hlen : block.length = n) :
    ∃ pa, PoolArrayInit (some block) pa0 base size n = some (true, pa) ∧
      pa.Size = n ∧ pa.Available = n ∧ IsList pa.nodes pa.activeList [] ∧
      IsList pa.nodes pa.availableList (List.range n) ∧
      (base < SIZE_MOD → base + n * size ≤ SIZE_MOD →
        ∀ i, i < n → dataAt pa.nodes i = some (base + i * size)) := by
  have h0 : InitInv base size n pa0.Available 0 ⟨pa0.Available, n, none, none, block⟩ :=
    ⟨rfl, hlen, rfl, rfl, ⟨List.nodup_nil, rfl, trivial⟩, fun i hi => absurd hi (by omega)⟩
  obtain ⟨pa1, hfold, hinv1⟩ := initLoop_spec h0 n (Nat.le_refl _)
  refine ⟨⟨pa1.Size, pa1.Size, pa1.availableList, pa1.activeList, pa1.nodes⟩,
    ?_, hinv1.size_eq, hinv1.size_eq, ?_, hinv1.free.2.1, ?_⟩
  · simp only [PoolArrayInit]
    rw [hfold]
    rfl
  · show IsList pa1.nodes pa1.activeList []
    rw [hinv1.active]; rfl
  · intro hbase hfit i hi
    have hd : dataAt pa1.nodes i = some ((base + i * size) % SIZE_MOD) := by
      rw [Nat.mul_comm i size]; exact hinv1.data i hi
    rw [Nat.mod_eq_of_lt (elem_lt_of_fit hbase hfit hi)] at hd
    exact hd

/-- Witness of C7: the initialisation of the demo pool, four elements of 8 bytes
at the address 1000. -/
theorem C7_init_postcondition_witness :
    demoBlock.length = 4 ∧
    ∃ pa, PoolArrayInit (some demoBlock) demoPool0 1000 8 4 = some (true, pa) ∧
      pa.Size = 4 ∧ pa.Available = 4 ∧ IsList pa.nodes pa.activeList [] ∧
      IsList pa.nodes pa.availableList (List.range 4) ∧
      ∀ i, i < 4 → dataAt pa.nodes i = some (1000 + i * 8) := by
  obtain ⟨pa, h1, h2, h3, h4, h5, h6⟩ :=
    C7_init_postcondition demoBlock demoPool0 1000 8 4 rfl
  exact ⟨rfl, pa, h1, h2, h3, h4, h5, h6 (by decide) (by decide)⟩

theorem elem_injOn {base size n : Nat} (hsize : 0 < size)
    (hfit : base + n * size ≤ SIZE_MOD) :
    ∀ x ∈ List.range n, ∀ y ∈ List.range n,
      (base + size * x) % SIZE_MOD = (base + size * y) % SIZE_MOD → x = y := by
  intro x hx y hy hxy
  have hx' : x < n := List.mem_range.1 hx
  have hy' : y < n := List.mem_range.1 hy
  have h1 : size * x < n * size := by
    rw [Nat.mul_comm n size]; exact Nat.mul_lt_mul_of_pos_left hx' hsize
  have h2 : size * y < n * size := by
    rw [Nat.mul_comm n size]; exact Nat.mul_lt_mul_of_pos_left hy' hsize
  rw [Nat.mod_eq_of_lt (by omega), Nat.mod_eq_of_lt (by omega)] at hxy
  have h3 : size * x = size * y := by omega
  exact Nat.eq_of_mul_eq_mul_left hsize h3

/-- C8 (exhaust and reuse): for `n ≥ 1` elements of size `> 0`, the element array
being an object (it starts above `NULL` and ends inside the address space), after
a successful initialisation `n` acquisitions in a row all succeed, each returning
a non-`NULL` reference, and the references are pairwise distinct; the next
acquisition returns `NULL`, the exhausted value, and changes nothing; and after
retiring any one node the next acquisition returns the element of that node. -/
theorem C8_exhaust_and_reuse (block : List PoolArrayNode) (pa0 : PoolArray)
    (base size n : Nat) (hn : 1 ≤ n) (hsize : 0 < size) (hlen : block.length = n)
    (hbase : 0 < base) (hfit : base + n * size ≤ SIZE_MOD) :
    ∃ p1 rs p2, PoolArrayInit (some block) pa0 base size n = some (true, p1) ∧
      acquireN n p1 = some (rs, p2) ∧ rs.length = n ∧ (∀ r ∈ rs, r ≠ NULL) ∧ rs.Nodup ∧
      rs.map some = (List.range n).map (dataAt p1.nodes) ∧
      PoolArrayGetNextItem p2 = some (NULL, p2) ∧
      IsList p2.nodes p2.activeList (List.range n) ∧
      ∀ k, k < n → ∃ d p3 p4, dataAt p2.nodes k = some d ∧
        PoolArrayRetireNode p2 (some k) = some p3 ∧
        PoolArrayGetNextItem p3 = some (d, p4) := by
  have hnle : n ≤ n * size := Nat.le_mul_of_pos_right n hsize
  have hnlt : n < SIZE_MOD := by omega
  have _hpos : 0 < n := hn
  obtain ⟨p1, hinit, hinv1, hsz1, _⟩ := PoolArrayInit_spec block pa0 base size n hlen hnlt
  obtain ⟨p2, hacq, hinv2, hsz2⟩ := acquireN_spec n hinv1 (by simp)
  have ht : (List.range n).take n = List.range n :=
    List.take_of_length_le (by simp)
  have hd : (List.range n).drop n = [] := List.drop_eq_nil_of_le (by simp)
  rw [ht, hd, List.nil_append] at hinv2
  rw [ht] at hacq
  have hinv2' : Inv base size p2 [] (List.range n) := hinv2
  have hacq' : acquireN n p1 =
      some ((List.range n).map (fun x => (base + size * x) % SIZE_MOD), p2) := hacq
  refine ⟨p1, _, p2, hinit, hacq', by simp, ?_, ?_, ?_, ?_, hinv2'.active.2.1, ?_⟩
  · intro r hr
    obtain ⟨x, hx, rfl⟩ := List.mem_map.1 hr
    have hx' : x < n := List.mem_range.1 hx
    have h1 : size * x < n * size := by
      rw [Nat.mul_comm n size]; exact Nat.mul_lt_mul_of_pos_left hx' hsize
    rw [Nat.mod_eq_of_lt (by omega)]
    unfold NULL
    omega
  · exact List.Nodup.map_on (fun x hx y hy hxy => elem_injOn hsize hfit x hx y hy hxy)
      (List.nodup_range n)
  · refine hinv1.data_map _ ?_
    intro x hx
    rw [hsz1]; exact List.mem_range.1 hx
  · exact getNextItem_exhausted p2 hinv2'.avail
  · intro k hk
    obtain ⟨pre, post, hsplit⟩ := List.append_of_mem (List.mem_range.2 hk)
    have hinv2'' : Inv base size p2 [] (pre ++ k :: post) := hsplit ▸ hinv2'
    obtain ⟨p3, hret, hinv3, _, _⟩ := PoolArrayRetireNode_spec hinv2''
    have hinv3' : Inv base size p3 (k :: []) (pre ++ post) := by simpa using hinv3
    obtain ⟨p4, hget, _, _, _⟩ := PoolArrayGetNextItem_spec hinv3'
    have hk2 : k < p2.Size := by rw [hsz2, hsz1]; exact hk
    exact ⟨_, p3, p4, hinv2'.data k hk2, hret, hget⟩

/-- Witness of C8 on the demo pool: four elements of 8 bytes at address 1000. -/
theorem C8_exhaust_and_reuse_witness :
    1 ≤ 4 ∧ 0 < 8 ∧ demoBlock.length = 4 ∧ 0 < 1000 ∧ 1000 + 4 * 8 ≤ SIZE_MOD ∧
    ∃ p1 rs p2, PoolArrayInit (some demoBlock) demoPool0 1000 8 4 = some (true, p1) ∧
      acquireN 4 p1 = some (rs, p2) ∧ rs.length = 4 ∧ (∀ r ∈ rs, r ≠ NULL) ∧ rs.Nodup ∧
      rs.map some = (List.range 4).map (dataAt p1.nodes) ∧
      PoolArrayGetNextItem p2 = some (NULL, p2) ∧
      IsList p2.nodes p2.activeList (List.range 4) ∧
      ∀ k, k < 4 → ∃ d p3 p4, dataAt p2.nodes k = some d ∧
        PoolArrayRetireNode p2 (some k) = some p3 ∧
        PoolArrayGetNextItem p3 = some (d, p4) :=
  ⟨by decide, by decide, rfl, by decide, by decide,
    C8_exhaust_and_reuse demoBlock demoPool0 1000 8 4 (by decide) (by decide) rfl
      (by decide) (by decide)⟩

/-- C9 (idempotent drain): from a reachable state `PoolArrayRetireAll` ends (any
fuel of at least `Size` is enough, and the result does not depend on the fuel) in
a state with an empty active list and `Available == Size`; on that state
`PoolArrayRetireAll` changes nothing. -/
theorem C9_idempotent_drain (array size : Nat) (pa : PoolArray)
    (hr : Reachable array size pa) :
    ∃ pa', (∀ fuel, pa.Size ≤ fuel → PoolArrayRetireAll fuel pa = some pa') ∧
      (∀ fuel r, PoolArrayRetireAll fuel pa = some r → r = pa') ∧
      pa'.activeList = none ∧ IsList pa'.nodes pa'.activeList [] ∧
      pa'.Available = pa'.Size ∧
      ∀ fuel, PoolArrayRetireAll fuel pa' = some pa' := by
  obtain ⟨F, A, hinv⟩ := Reachable_inv hr
  obtain ⟨pa', hinv', hsz, _, hall⟩ := PoolArrayRetireAll_spec hinv
  have hAle : A.length ≤ pa.Size := by
    have := hinv.length_add; omega
  have hnone : pa'.activeList = none := hinv'.active.2.1
  refine ⟨pa', ?_, ?_, hnone, hinv'.active.2.1, ?_, ?_⟩
  · intro fuel hfuel
    rw [hall fuel, if_pos (by omega)]
  · intro fuel r hrun
    rw [hall fuel] at hrun
    by_cases hf : A.length ≤ fuel
    · rw [if_pos hf] at hrun
      cases hrun; rfl
    · rw [if_neg hf] at hrun
      cases hrun
  · have := hinv'.length_add
    rw [hinv'.avail]
    simpa using this
  · intro fuel
    cases fuel <;> simp [PoolArrayRetireAll, hnone]

/-- Witness of C9 on the demo pool after four acquisitions and one retirement. -/
theorem C9_idempotent_drain_witness :
    Reachable 1000 8 demoRet1 ∧
    ∃ pa', (∀ fuel, demoRet1.Size ≤ fuel → PoolArrayRetireAll fuel demoRet1 = some pa') ∧
      (∀ fuel r, PoolArrayRetireAll fuel demoRet1 = some r → r = pa') ∧
      pa'.activeList = none ∧ IsList pa'.nodes pa'.activeList [] ∧
      pa'.Available = pa'.Size ∧
      ∀ fuel, PoolArrayRetireAll fuel pa' = some pa' :=
  ⟨demoRet1_reachable, C9_idempotent_drain 1000 8 demoRet1 demoRet1_reachable⟩

/-- C10 (RetireAll equals per-node retirement): in a reachable state with active
list `A` and free list `F`, `PoolArrayRetireAll` ends (any fuel of at least the
length of `A` is enough) in the very state that `PoolArrayRetireNode` on the nodes
of `A`, one after the other in the order of `A`, produces; its free list is
`F ++ A` and its active list is empty. -/
theorem C10_retireAll_eq_retireEach (array size : Nat) (pa : PoolArray) (F A : List Nat)
    (hr : Reachable array size pa) (hF : IsList pa.nodes pa.availableList F)
    (hA : IsList pa.nodes pa.activeList A) :
    ∃ pa', (∀ fuel, A.length ≤ fuel → PoolArrayRetireAll fuel pa = some pa') ∧
      retireEach pa A = some pa' ∧
      IsList pa'.nodes pa'.availableList (F ++ A) ∧
      IsList pa'.nodes pa'.activeList [] := by
  have hinv := Reachable_inv_of_lists hr hF hA
  obtain ⟨pa', hinv', _, heach, hall⟩ := PoolArrayRetireAll_spec hinv
  refine ⟨pa', ?_, heach, hinv'.free.2.1, hinv'.active.2.1⟩
  intro fuel hfuel
  rw [hall fuel, if_pos hfuel]

/-- Witness of C10 on the demo pool after four acquisitions and one retirement. -/
theorem C10_retireAll_eq_retireEach_witness :
    Reachable 1000 8 demoRet1 ∧ IsList demoRet1.nodes demoRet1.availableList [1] ∧
    IsList demoRet1.nodes demoRet1.activeList [0, 2, 3] ∧
    ∃ pa', (∀ fuel, [0, 2, 3].length ≤ fuel →
        PoolArrayRetireAll fuel demoRet1 = some pa') ∧
      retireEach demoRet1 [0, 2, 3] = some pa' ∧
      IsList pa'.nodes pa'.availableList ([1] ++ [0, 2, 3]) ∧
      IsList pa'.nodes pa'.activeList [] :=
  ⟨demoRet1_reachable, by simp [IsList, demoRet1, nextAt],
    by simp [IsList, demoRet1, nextAt],
    C10_retireAll_eq_retireEach 1000 8 demoRet1 [1] [0, 2, 3] demoRet1_reachable
      (by simp [IsList, demoRet1, nextAt]) (by simp [IsList, demoRet1, nextAt])⟩

theorem IsList_nodup {nodes : List PoolArrayNode} {L : List Nat} :
    ∀ {head : Ptr}, IsList nodes head L → L.Nodup := by
  induction L with
  | nil => intro _ _; exact List.nodup_nil
  | cons x xs ih =>
    intro head h
    obtain ⟨_, m, hm, hrest⟩ := h
    refine List.nodup_cons.2 ⟨?_, ih hrest⟩
    intro hx
    obtain ⟨ys, zs, hsplit⟩ := List.append_of_mem hx
    have h2 : NextSeg nodes m (ys ++ x :: zs) none := hsplit ▸ hrest
    rw [NextSeg_append] at h2
    obtain ⟨_, _, _, m', hm', hzs⟩ := h2
    rw [hm] at hm'
    cases hm'
    have e : xs = zs := NextSeg_unique hrest hzs
    have hl : xs.length = (ys ++ x :: zs).length := by rw [← hsplit]
    rw [e, List.length_append, List.length_cons] at hl
    omega

theorem WellFormedList_iff_DList {nodes : List PoolArrayNode} {head : Ptr} {L : List Nat} :
    WellFormedList nodes head L ↔ DList nodes head L :=
  ⟨fun h => ⟨IsList_nodup h.1, h.1, h.2⟩, fun h => ⟨h.2.1, h.2.2⟩⟩

theorem NextSeg_getElem {nodes : List PoolArrayNode} {L : List Nat} :
    ∀ {p q : Ptr} {i a b : Nat}, NextSeg nodes p L q → L[i]? = some a →
      L[i + 1]? = some b → nextAt nodes a = some (some b) := by
  induction L with
  | nil => intro p q i a b _ ha; simp at ha
  | cons x xs ih =>
    intro p q i a b h ha hb
    obtain ⟨_, m, hm, hrest⟩ := h
    cases i with
    | zero =>
      simp only [List.getElem?_cons_zero, Option.some.injEq] at ha
      subst ha
      rw [List.getElem?_cons_succ] at hb
      cases xs with
      | nil => simp at hb
      | cons y ys =>
        simp only [List.getElem?_cons_zero, Option.some.injEq] at hb
        subst hb
        rw [hm, hrest.1]
    | succ j =>
      rw [List.getElem?_cons_succ] at ha hb
      exact ih hrest ha hb

theorem NextSeg_last {nodes : List PoolArrayNode} {L : List Nat} {p q : Ptr} {l : Nat}
    (h : NextSeg nodes p L q) (hl : L.getLast? = some l) : nextAt nodes l = some q := by
  obtain ⟨ys, rfl⟩ := List.getLast?_eq_some_iff.1 hl
  rw [NextSeg_append] at h
  obtain ⟨_, _, _, m, hm, hq⟩ := h
  have : m = q := hq
  rw [hm, this]

theorem PrevLinks_getElem {nodes : List PoolArrayNode} {L : List Nat} :
    ∀ {c i a b : Nat}, PrevLinks nodes c L → L[i]? = some a →
      L[i + 1]? = some b → prevAt nodes b = some (some a) := by
  induction L with
  | nil => intro c i a b _ ha; simp at ha
  | cons x xs ih =>
    intro c i a b h ha hb
    obtain ⟨_, hrest⟩ := h
    cases i with
    | zero =>
      simp only [List.getElem?_cons_zero, Option.some.injEq] at ha
      subst ha
      rw [List.getElem?_cons_succ] at hb
      cases xs with
      | nil => simp at hb
      | cons y ys =>
        simp only [List.getElem?_cons_zero, Option.some.injEq] at hb
        subst hb
        exact hrest.1
    | succ j =>
      rw [List.getElem?_cons_succ] at ha hb
      exact ih hrest ha hb

theorem DList_tailViaHeadBacklink {nodes : List PoolArrayNode} {head : Ptr} {L : List Nat}
    (h : DList nodes head L) : TailViaHeadBacklink nodes head L := by
  obtain ⟨_, hnext, hprev⟩ := h
  refine ⟨?_, ?_, ?_⟩
  · cases L with
    | nil => exact ⟨fun _ => hnext, fun _ => rfl⟩
    | cons x xs =>
      have hx : head = some x := hnext.1
      constructor
      · intro e; cases e
      · intro e; rw [hx] at e; cases e
  · intro a l ha hl
    cases L with
    | nil => simp at ha
    | cons x xs =>
      simp only [List.head?_cons, Option.some.injEq] at ha
      subst ha
      have hlast : xs.getLastD x = l := by
        rw [List.getLast?_cons, ← List.getLastD_eq_getLast?] at hl
        exact Option.some.inj hl
      rw [List.getLastD_cons, hlast] at hprev
      exact ⟨hnext.1, hprev.1, NextSeg_last hnext hl⟩
  · intro i a b ha hb
    exact ⟨NextSeg_getElem hnext ha hb, PrevLinks_getElem hprev ha hb⟩

/-- C11 (round trip): in a reachable state with free list `h :: t` and active
list `A`, `PoolArrayGetNextItem` followed by `PoolArrayRetireNode` on the node
just acquired (`h`, now the last active node) gives back the old `Available` and
the old active list `A`, and leaves the free list `t ++ [h]`: the old one rotated
by one. -/
theorem C11_round_trip (array size : Nat) (pa : PoolArray) (h : Nat) (t A : List Nat)
    (hr : Reachable array size pa) (hF : IsList pa.nodes pa.availableList (h :: t))
    (hA : IsList pa.nodes pa.activeList A) :
    1 ≤ pa.Available ∧
    ∃ d pa1 pa2, PoolArrayGetNextItem pa = some (d, pa1) ∧
      IsList pa1.nodes pa1.activeList (A ++ [h]) ∧
      PoolArrayRetireNode pa1 (some h) = some pa2 ∧
      pa2.Available = pa.Available ∧ pa2.Size = pa.Size ∧
      IsList pa2.nodes pa2.activeList A ∧
      IsList pa2.nodes pa2.availableList (t ++ [h]) := by
  have hinv := Reachable_inv_of_lists hr hF hA
  obtain ⟨pa1, hget, hinv1, hav1, hsz1⟩ := PoolArrayGetNextItem_spec hinv
  have hinv1' : Inv array size pa1 t (A ++ h :: []) := hinv1
  obtain ⟨pa2, hret, hinv2, hav2, hsz2⟩ := PoolArrayRetireNode_spec hinv1'
  have hinv2' : Inv array size pa2 (t ++ [h]) A := by simpa using hinv2
  refine ⟨by omega, _, pa1, pa2, hget, hinv1.active.2.1, hret, by omega, hsz2.trans hsz1,
    hinv2'.active.2.1, hinv2'.free.2.1⟩

/-- Witness of C11 on the demo pool after two acquisitions. -/
theorem C11_round_trip_witness :
    Reachable 1000 8 demoAcq2 ∧ IsList demoAcq2.nodes demoAcq2.availableList [2, 3] ∧
    IsList demoAcq2.nodes demoAcq2.activeList [0, 1] ∧
    (1 ≤ demoAcq2.Available ∧
    ∃ d pa1 pa2, PoolArrayGetNextItem demoAcq2 = some (d, pa1) ∧
      IsList pa1.nodes pa1.activeList ([0, 1] ++ [2]) ∧
      PoolArrayRetireNode pa1 (some 2) = some pa2 ∧
      pa2.Available = demoAcq2.Available ∧ pa2.Size = demoAcq2.Size ∧
      IsList pa2.nodes pa2.activeList [0, 1] ∧
      IsList pa2.nodes pa2.availableList ([3] ++ [2])) :=
  ⟨demoAcq2_reachable, by simp [IsList, demoAcq2, nextAt],
    by simp [IsList, demoAcq2, nextAt],
    C11_round_trip 1000 8 demoAcq2 2 [3] [0, 1] demoAcq2_reachable
      (by simp [IsList, demoAcq2, nextAt]) (by simp [IsList, demoAcq2, nextAt])⟩

/-- C12 (tail-via-head-backlink invariant): in every reachable state both lists
are in the tail-via-head-backlink form: each is empty exactly when its head is
`NULL`; otherwise the `prev` of the head is the last node, the `next` of the last
node is `NULL`, and the `prev` of every other node is its predecessor in the
forward chain. -/
theorem C12_tail_via_head_backlink (array size : Nat) (pa : PoolArray)
    (hr : Reachable array size pa) :
    ∃ F A, WellFormedList pa.nodes pa.availableList F ∧
      WellFormedList pa.nodes pa.activeList A ∧
      TailViaHeadBacklink pa.nodes pa.availableList F ∧
      TailViaHeadBacklink pa.nodes pa.activeList A := by
  obtain ⟨F, A, hinv⟩ := Reachable_inv hr
  exact ⟨F, A, WellFormedList_iff_DList.2 hinv.free, WellFormedList_iff_DList.2 hinv.active,
    DList_tailViaHeadBacklink hinv.free, DList_tailViaHeadBacklink hinv.active⟩

/-- Witness of C12 on the demo pool after four acquisitions and one retirement. -/
theorem C12_tail_via_head_backlink_witness :
    Reachable 1000 8 demoRet1 ∧
    ∃ F A, WellFormedList demoRet1.nodes demoRet1.availableList F ∧
      WellFormedList demoRet1.nodes demoRet1.activeList A ∧
      TailViaHeadBacklink demoRet1.nodes demoRet1.availableList F ∧
      TailViaHeadBacklink demoRet1.nodes demoRet1.activeList A :=
  ⟨demoRet1_reachable, C12_tail_via_head_backlink 1000 8 demoRet1 demoRet1_reachable⟩

theorem retireWhere_spec {array size : Nat} (p : Nat → Bool) (rest : List Nat) :
    ∀ {pa : PoolArray} {F done : List Nat}, Inv array size pa F (done ++ rest) →
    ∃ pa', Inv array size pa' (F ++ rest.filter p) (done ++ rest.filter (fun x => !p x)) ∧
      ∀ fuel, rest.length ≤ fuel → retireWhere p fuel rest.head? pa = some (rest, pa') := by
  induction rest with
  | nil =>
    intro pa F done hinv
    refine ⟨pa, by simpa using hinv, ?_⟩
    intro fuel _
    cases fuel <;> simp [retireWhere]
  | cons n rest ih =>
    intro pa F done hinv
    have hseg := hinv.active.2.1
    unfold IsList at hseg
    rw [NextSeg_append] at hseg
    obtain ⟨_, _, _, m, hm, hrest⟩ := hseg
    have hmhead : m = rest.head? := NextSeg_head hrest
    obtain ⟨nd, hget, hnd⟩ := getNode_next hm
    by_cases hp : p n = true
    · obtain ⟨pa1, hret, hinv1, _, _⟩ := PoolArrayRetireNode_spec hinv
      obtain ⟨pa', hinv', hrun⟩ := @ih pa1 (F ++ [n]) done hinv1
      refine ⟨pa', ?_, ?_⟩
      · simpa [List.filter_cons, hp] using hinv'
      · intro fuel hfuel
        cases fuel with
        | zero => simp at hfuel
        | succ f =>
          have hf : rest.length ≤ f := by simpa using hfuel
          simp [retireWhere, hget, hnd, hp, hret, hmhead, hrun f hf]
    · have hinv0 : Inv array size pa F ((done ++ [n]) ++ rest) := by simpa using hinv
      obtain ⟨pa', hinv', hrun⟩ := @ih pa F (done ++ [n]) hinv0
      refine ⟨pa', ?_, ?_⟩
      · simpa [List.filter_cons, hp] using hinv'
      · intro fuel hfuel
        cases fuel with
        | zero => simp at hfuel
        | succ f =>
          have hf : rest.length ≤ f := by simpa using hfuel
          simp [retireWhere, hget, hnd, hp, hmhead, hrun f hf]

/-- C13 (iteration discipline): in a reachable state with active list `A` and
free list `F`, the documented loop with the predicate `p` ends (any fuel of at
least the length of `A` is enough) after visiting exactly the nodes of `A`, in the
order of `A`; the active list is then `A` without the nodes on which `p` holds,
the free list is `F` followed by those nodes in the order of `A`. And retiring a
node `n` of `A` leaves the chain from its captured `next` pointer, the rest of `A`
behind `n`, as it was. -/
theorem C13_iteration_discipline (array size : Nat) (pa : PoolArray) (F A : List Nat)
    (p : Nat → Bool) (hr : Reachable array size pa)
    (hF : IsList pa.nodes pa.availableList F) (hA : IsList pa.nodes pa.activeList A) :
    (∃ pa', (∀ fuel, A.length ≤ fuel →
        retireWhere p fuel pa.activeList pa = some (A, pa')) ∧
      IsList pa'.nodes pa'.activeList (A.filter (fun x => !p x)) ∧
      IsList pa'.nodes pa'.availableList (F ++ A.filter p)) ∧
    (∀ pre n post, A = pre ++ n :: post →
      ∃ m pa1, nextAt pa.nodes n = some m ∧ PoolArrayRetireNode pa (some n) = some pa1 ∧
        NextSeg pa.nodes m post none ∧ NextSeg pa1.nodes m post none) := by
  have hinv := Reachable_inv_of_lists hr hF hA
  constructor
  · have hinv0 : Inv array size pa F ([] ++ A) := hinv
    obtain ⟨pa', hinv', hrun⟩ := retireWhere_spec p A hinv0
    have hhead : pa.activeList = A.head? := NextSeg_head hA
    refine ⟨pa', ?_, ?_, hinv'.free.2.1⟩
    · intro fuel hfuel
      rw [hhead]; exact hrun fuel hfuel
    · simpa using hinv'.active.2.1
  · intro pre n post hsplit
    subst hsplit
    have hseg := hA
    unfold IsList at hseg
    rw [NextSeg_append] at hseg
    obtain ⟨_, _, _, m, hm, hrest⟩ := hseg
    obtain ⟨pa1, hret, hinv1, _, _⟩ := PoolArrayRetireNode_spec hinv
    have hseg1 := hinv1.active.2.1
    unfold IsList at hseg1
    rw [NextSeg_append] at hseg1
    obtain ⟨mid, _, hpost1⟩ := hseg1
    have e1 : m = post.head? := NextSeg_head hrest
    have e2 : mid = post.head? := NextSeg_head hpost1
    refine ⟨m, pa1, hm, hret, hrest, ?_⟩
    rw [e1, ← e2]; exact hpost1

/-- Witness of C13: on the used-up demo pool, retiring the odd nodes in the loop. -/
theorem C13_iteration_discipline_witness :
    Reachable 1000 8 demoAcq4 ∧ IsList demoAcq4.nodes demoAcq4.availableList [] ∧
    IsList demoAcq4.nodes demoAcq4.activeList [0, 1, 2, 3] ∧
    ((∃ pa', (∀ fuel, [0, 1, 2, 3].length ≤ fuel →
        retireWhere (fun x => x % 2 == 1) fuel demoAcq4.activeList demoAcq4 =
          some ([0, 1, 2, 3], pa')) ∧
      IsList pa'.nodes pa'.activeList
        (([0, 1, 2, 3] : List Nat).filter (fun x => !(fun x => x % 2 == 1) x)) ∧
      IsList pa'.nodes pa'.availableList
        ([] ++ ([0, 1, 2, 3] : List Nat).filter (fun x => x % 2 == 1))) ∧
    (∀ pre n post, [0, 1, 2, 3] = pre ++ n :: post →
      ∃ m pa1, nextAt demoAcq4.nodes n = some m ∧
        PoolArrayRetireNode demoAcq4 (some n) = some pa1 ∧
        NextSeg demoAcq4.nodes m post none ∧ NextSeg pa1.nodes m post none)) :=
  ⟨demoAcq4_reachable, rfl, demoAcq4_active,
    C13_iteration_discipline 1000 8 demoAcq4 [] [0, 1, 2, 3] (fun x => x % 2 == 1)
      demoAcq4_reachable rfl demoAcq4_active⟩

theorem DList_cons_head {nodes : List PoolArrayNode} {head : Ptr} {h : Nat} {t : List Nat}
    (hd : DList nodes head (h :: t)) :
    head = some h ∧ prevAt nodes h = some (some (t.getLastD h)) ∧
      nextAt nodes (t.getLastD h) = some none := by
  obtain ⟨_, hnext, hprev⟩ := hd
  rw [List.getLastD_cons] at hprev
  refine ⟨hnext.1, hprev.1, NextSeg_last hnext ?_⟩
  rw [List.getLast?_cons, ← List.getLastD_eq_getLast?]

/-- C14 (delete primitive): on a well-formed list that represents
`pre ++ [n] ++ post`, `DL_DELETE(head, n)` gives a well-formed list that represents
`pre ++ post`, the list with `n` removed and the other nodes in their old order.
When `n` is the only node the list becomes empty; when `n` is the head of a longer
list the new head is its successor, whose `prev` becomes the old tail; when `n` is
not the head the head stays, and when `n` is the tail the `prev` of the head
becomes the predecessor of `n`. -/
theorem C14_delete_primitive (nodes : List PoolArrayNode) (head : Ptr) (pre post : List Nat)
    (n : Nat) (h : WellFormedList nodes head (pre ++ n :: post)) :
    ∃ head' nodes', DL_DELETE head (some n) nodes = some (head', nodes') ∧
      WellFormedList nodes' head' (pre ++ post) ∧
      TailViaHeadBacklink nodes' head' (pre ++ post) ∧
      (pre ++ n :: post).erase n = pre ++ post ∧
      (pre = [] → post = [] → head' = none) ∧
      (pre = [] → ∀ m post', post = m :: post' →
        head' = some m ∧ prevAt nodes' m = some (some (post'.getLastD m)) ∧
        (n :: m :: post').getLast? = some (post'.getLastD m)) ∧
      (∀ a pre', pre = a :: pre' → head' = head ∧ head = some a) ∧
      (post = [] → ∀ a pre', pre = a :: pre' →
        prevAt nodes' a = some (some (pre'.getLastD a)) ∧
        pre.getLast? = some (pre'.getLastD a)) := by
  have hd := WellFormedList_iff_DList.1 h
  obtain ⟨head', nodes', hdel, hd', _⟩ := DL_DELETE2_spec hd
  have hn_pre : n ∉ pre := by
    have := (List.nodup_cons.1 (List.nodup_middle.1 hd.1)).1
    exact fun hx => this (List.mem_append_left _ hx)
  refine ⟨head', nodes', hdel, WellFormedList_iff_DList.2 hd', DList_tailViaHeadBacklink hd',
    ?_, ?_, ?_, ?_, ?_⟩
  · rw [List.erase_append_right _ hn_pre, List.erase_cons_head]
  · intro e1 e2
    subst e1; subst e2
    exact hd'.2.1
  · intro e1 m post' e2
    subst e1; subst e2
    obtain ⟨h1, h2, _⟩ := DList_cons_head hd'
    refine ⟨h1, h2, ?_⟩
    rw [List.getLast?_cons_cons, List.getLast?_cons, ← List.getLastD_eq_getLast?]
  · intro a pre' e1
    subst e1
    have h1 : head' = some a := hd'.2.1.1
    have h2 : head = some a := hd.2.1.1
    exact ⟨h1.trans h2.symm, h2⟩
  · intro e1 a pre' e2
    subst e1; subst e2
    rw [List.append_nil] at hd'
    obtain ⟨_, h2, _⟩ := DList_cons_head hd'
    refine ⟨h2, ?_⟩
    rw [List.getLast?_cons, ← List.getLastD_eq_getLast?]

/-- Witness of C14: deleting the interior node 1 from the active list of the
used-up demo pool. -/
theorem C14_delete_primitive_witness :
    WellFormedList demoAcq4.nodes demoAcq4.activeList ([0] ++ 1 :: [2, 3]) ∧
    ∃ head' nodes', DL_DELETE demoAcq4.activeList (some 1) demoAcq4.nodes =
        some (head', nodes') ∧
      WellFormedList nodes' head' ([0] ++ [2, 3]) ∧
      TailViaHeadBacklink nodes' head' ([0] ++ [2, 3]) ∧
      ([0] ++ 1 :: [2, 3]).erase 1 = [0] ++ [2, 3] ∧
      (([0] : List Nat) = [] → ([2, 3] : List Nat) = [] → head' = none) ∧
      (([0] : List Nat) = [] → ∀ m post', [2, 3] = m :: post' →
        head' = some m ∧ prevAt nodes' m = some (some (post'.getLastD m)) ∧
        (1 :: m :: post').getLast? = some (post'.getLastD m)) ∧
      (∀ a pre', [0] = a :: pre' → head' = demoAcq4.activeList ∧
        demoAcq4.activeList = some a) ∧
      (([2, 3] : List Nat) = [] → ∀ a pre', [0] = a :: pre' →
        prevAt nodes' a = some (some (pre'.getLastD a)) ∧
        ([0] : List Nat).getLast? = some (pre'.getLastD a)) :=
  ⟨by simp [WellFormedList, IsList, demoAcq4, nextAt, prevAt],
    C14_delete_primitive demoAcq4.nodes demoAcq4.activeList [0] [2, 3] 1
      (by simp [WellFormedList, IsList, demoAcq4, nextAt, prevAt])⟩

/-- C15 (append primitive): on a well-formed list that represents `L` and a node
`n` of the storage that is not in `L`, `DL_APPEND(head, n)` gives a well-formed
list that represents `L ++ [n]`. When `L` is empty `n` becomes the head, its `prev`
is `n` itself and its `next` is `NULL`; otherwise the head is unchanged, the `next`
of the old tail is `n`, the `prev` of `n` is the old tail, the `prev` of the head
is `n` and the `next` of `n` is `NULL`. -/
theorem C15_append_primitive (nodes : List PoolArrayNode) (head : Ptr) (L : List Nat)
    (n : Nat) (h : WellFormedList nodes head L) (hn : n ∉ L) (hlt : n < nodes.length) :
    ∃ head' nodes', DL_APPEND head (some n) nodes = some (head', nodes') ∧
      WellFormedList nodes' head' (L ++ [n]) ∧
      TailViaHeadBacklink nodes' head' (L ++ [n]) ∧
      (L = [] → head' = some n ∧ prevAt nodes' n = some (some n) ∧
        nextAt nodes' n = some none) ∧
      (∀ a t, L = a :: t → head' = head ∧ head = some a ∧
        L.getLast? = some (t.getLastD a) ∧
        nextAt nodes' (t.getLastD a) = some (some n) ∧
        prevAt nodes' n = some (some (t.getLastD a)) ∧
        prevAt nodes' a = some (some n) ∧ nextAt nodes' n = some none) := by
  have hd := WellFormedList_iff_DList.1 h
  obtain ⟨head', nodes', happ, hd', _⟩ := DL_APPEND2_spec hd hn hlt
  refine ⟨head', nodes', happ, WellFormedList_iff_DList.2 hd', DList_tailViaHeadBacklink hd',
    ?_, ?_⟩
  · intro e
    subst e
    have hd1 : DList nodes' head' (n :: []) := hd'
    obtain ⟨h1, h2, h3⟩ := DList_cons_head hd1
    exact ⟨h1, h2, h3⟩
  · intro a t e
    subst e
    have hd1 : DList nodes' head' (a :: (t ++ [n])) := hd'
    obtain ⟨h1, h2, h3⟩ := DList_cons_head hd1
    rw [List.getLastD_concat] at h2 h3
    have hl : (a :: t).getLast? = some (t.getLastD a) := by
      rw [List.getLast?_cons, ← List.getLastD_eq_getLast?]
    have hseg := hd'.2.1
    unfold IsList at hseg
    rw [NextSeg_append] at hseg
    obtain ⟨mid, hL, hmid, _⟩ := hseg
    subst hmid
    have hpl := hd'.2.2
    rw [PrevLinks_append] at hpl
    have hpn : prevAt nodes' n = some (some (t.getLastD a)) := by
      have := hpl.2.1
      rw [List.getLastD_cons] at this
      exact this
    exact ⟨h1.trans hd.2.1.1.symm, hd.2.1.1, hl, NextSeg_last hL hl, hpn, h2, h3⟩

/-- Witness of C15: appending node 1 to the active list of the demo pool after one
acquisition. -/
theorem C15_append_primitive_witness :
    WellFormedList demoAcq1.nodes demoAcq1.activeList [0] ∧ 1 ∉ ([0] : List Nat) ∧
    1 < demoAcq1.nodes.length ∧
    ∃ head' nodes', DL_APPEND demoAcq1.activeList (some 1) demoAcq1.nodes =
        some (head', nodes') ∧
      WellFormedList nodes' head' ([0] ++ [1]) ∧
      TailViaHeadBacklink nodes' head' ([0] ++ [1]) ∧
      (([0] : List Nat) = [] → head' = some 1 ∧ prevAt nodes' 1 = some (some 1) ∧
        nextAt nodes' 1 = some none) ∧
      (∀ a t, [0] = a :: t → head' = demoAcq1.activeList ∧
        demoAcq1.activeList = some a ∧
        ([0] : List Nat).getLast? = some (t.getLastD a) ∧
        nextAt nodes' (t.getLastD a) = some (some 1) ∧
        prevAt nodes' 1 = some (some (t.getLastD a)) ∧
        prevAt nodes' a = some (some 1) ∧ nextAt nodes' 1 = some none) :=
  ⟨by simp [WellFormedList, IsList, demoAcq1, nextAt, prevAt], by decide, by decide,
    C15_append_primitive demoAcq1.nodes demoAcq1.activeList [0] 1
      (by simp [WellFormedList, IsList, demoAcq1, nextAt, prevAt]) (by decide) (by decide)⟩

theorem pairRet0_reachable : Reachable 1000 8 pairRet0 :=
  Reachable.retireNode pairAcq2 pairRet0 [0, 1] 0
    (Reachable.getNextItem pairAcq1 pairAcq2 1008
      (Reachable.getNextItem pairInit pairAcq1 1000
        (Reachable.init (List.replicate 2 ⟨0, none, none⟩) demoPool0 pairInit 2 rfl
          (by decide) (by decide) (by decide) (by decide))
        (by decide))
      (by decide))
    (by simp [IsList, pairAcq2, nextAt]) (by decide) (by decide)

theorem tripleInit_reachable : Reachable 1000 8 tripleInit :=
  Reachable.init (List.replicate 3 ⟨0, none, none⟩) demoPool0 tripleInit 3 rfl
    (by decide) (by decide) (by decide) (by decide)

/-- C16 (no defence against retiring a free node), as the code has it: the pool
of three elements right after its initialisation is reachable, its node 1 is in
the free list, and `PoolArrayRetireNode` on node 1 completes: afterwards the free
list is 0, 2, 1, still three nodes, while `Available` is 4, more than `Size`, so
no pair of lists satisfies the pool invariant. -/
theorem C16_retire_free_node :
    Reachable 1000 8 tripleInit ∧
    IsList tripleInit.nodes tripleInit.availableList [0, 1, 2] ∧
    IsList tripleInit.nodes tripleInit.activeList [] ∧
    PoolArrayRetireNode tripleInit (some 1) = some tripleBad ∧
    IsList tripleBad.nodes tripleBad.availableList [0, 2, 1] ∧
    IsList tripleBad.nodes tripleBad.activeList [] ∧
    tripleBad.Available = 4 ∧ tripleBad.Size = 3 ∧
    (∀ F A, ¬ Inv 1000 8 tripleBad F A) := by
  refine ⟨tripleInit_reachable, by simp [IsList, tripleInit, nextAt], rfl, by decide,
    by simp [IsList, tripleBad, nextAt], rfl, rfl, rfl, ?_⟩
  intro F A hinv
  have h1 := hinv.length_add
  have h2 := hinv.avail
  have h3 : tripleBad.Available = 4 := rfl
  have h4 : tripleBad.Size = 3 := rfl
  omega

/-- Counterexample to C16 as stated: in the pool of two elements, after acquiring
both and retiring node 0, node 0 is the only free node and node 1 the only active
one; `PoolArrayRetireNode` on node 0 does not complete: it runs into a dereference
of `NULL`. -/
theorem C16_retire_free_node_counterexample :
    Reachable 1000 8 pairRet0 ∧
    IsList pairRet0.nodes pairRet0.availableList [0] ∧
    IsList pairRet0.nodes pairRet0.activeList [1] ∧
    PoolArrayRetireNode pairRet0 (some 0) = none ∧
    DL_DELETE pairRet0.activeList (some 0) pairRet0.nodes = some (none, pairRet0.nodes) ∧
    DL_APPEND pairRet0.availableList (some 0)
      [⟨1000, none, none⟩, ⟨1008, none, some 1⟩] = none :=
  ⟨pairRet0_reachable, by simp [IsList, pairRet0, nextAt], by simp [IsList, pairRet0, nextAt],
    by decide, by decide, by decide⟩

theorem PoolArrayRetireAll_eq_trace :
    ∀ (fuel : Nat) (pa : PoolArray),
      PoolArrayRetireAll fuel pa = (PoolArrayRetireAllTrace fuel pa).map Prod.snd := by
  intro fuel
  induction fuel with
  | zero =>
    intro pa
    unfold PoolArrayRetireAll PoolArrayRetireAllTrace
    cases pa.activeList <;> rfl
  | succ f ih =>
    intro pa
    rw [PoolArrayRetireAll, PoolArrayRetireAllTrace]
    cases hh : pa.activeList with
    | none => rfl
    | some n =>
      simp only []
      cases hret : PoolArrayRetireNode pa (some n) with
      | none => rfl
      | some pa1 =>
        simp only [Option.bind_eq_bind, Option.some_bind, ih pa1]
        cases PoolArrayRetireAllTrace f pa1 <;> rfl

theorem PoolArrayRetireAllTrace_spec {array size : Nat} {A : List Nat} :
    ∀ {pa : PoolArray} {F : List Nat}, Inv array size pa F A →
    ∀ fuel, A.length ≤ fuel → ∃ pa', PoolArrayRetireAllTrace fuel pa = some (A, pa') := by
  induction A with
  | nil =>
    intro pa F hinv fuel _
    have hhead : pa.activeList = none := hinv.active.2.1
    refine ⟨pa, ?_⟩
    cases fuel <;> simp [PoolArrayRetireAllTrace, hhead]
  | cons a A' ih =>
    intro pa F hinv fuel hfuel
    have hhead : pa.activeList = some a := hinv.active.2.1.1
    have hinv0 : Inv array size pa F ([] ++ a :: A') := hinv
    obtain ⟨pa1, hret, hinv1, _, _⟩ := PoolArrayRetireNode_spec hinv0
    cases fuel with
    | zero => simp at hfuel
    | succ f =>
      have hf : A'.length ≤ f := by simpa using hfuel
      obtain ⟨pa', htr⟩ := @ih pa1 (F ++ [a]) hinv1 f hf
      refine ⟨pa', ?_⟩
      rw [PoolArrayRetireAllTrace]
      simp [hhead, hret, htr]

/-- C17 (RetireAll terminates): in a reachable state whose active list `A` has
`k` nodes, the loop of `PoolArrayRetireAll` needs exactly `k` iterations: it ends
with any fuel of at least `k` and with no smaller one; the iterations retire the
nodes of `A` in the order of `A`; it stops with `activeList` `NULL`. One iteration
retires the current head of the active list and leaves an active list that is one
node shorter. -/
theorem C17_retireAll_terminates (array size : Nat) (pa : PoolArray) (A : List Nat)
    (hr : Reachable array size pa) (hA : IsList pa.nodes pa.activeList A) :
    (∃ pa', (∀ fuel, PoolArrayRetireAll fuel pa =
        if A.length ≤ fuel then some pa' else none) ∧
      (∀ fuel, A.length ≤ fuel → PoolArrayRetireAllTrace fuel pa = some (A, pa')) ∧
      pa'.activeList = none) ∧
    (∀ a A', A = a :: A' → pa.activeList = some a ∧
      ∃ pa1, PoolArrayRetireNode pa (some a) = some pa1 ∧
        IsList pa1.nodes pa1.activeList A' ∧ A'.length + 1 = A.length ∧
        ∀ fuel, PoolArrayRetireAll (fuel + 1) pa = PoolArrayRetireAll fuel pa1) := by
  obtain ⟨F, A0, hinv0⟩ := Reachable_inv hr
  have e : A = A0 := NextSeg_unique hA hinv0.active.2.1
  subst e
  have hinv := hinv0
  obtain ⟨pa', hinv', _, _, hall⟩ := PoolArrayRetireAll_spec hinv
  refine ⟨⟨pa', hall, ?_, hinv'.active.2.1⟩, ?_⟩
  · intro fuel hfuel
    obtain ⟨pa2, htr⟩ := PoolArrayRetireAllTrace_spec hinv fuel hfuel
    have h1 := PoolArrayRetireAll_eq_trace fuel pa
    rw [hall fuel, if_pos hfuel, htr] at h1
    have h2 : pa' = pa2 := Option.some.inj h1
    rw [htr, h2]
  · intro a A' e
    subst e
    have hhead : pa.activeList = some a := hA.1
    have hinv1 : Inv array size pa F ([] ++ a :: A') := hinv
    obtain ⟨pa1, hret, hinv2, _, _⟩ := PoolArrayRetireNode_spec hinv1
    refine ⟨hhead, pa1, hret, hinv2.active.2.1, rfl, ?_⟩
    intro fuel
    rw [PoolArrayRetireAll]
    simp [hhead, hret]

/-- Witness of C17 on the demo pool after four acquisitions and one retirement. -/
theorem C17_retireAll_terminates_witness :
    Reachable 1000 8 demoRet1 ∧ IsList demoRet1.nodes demoRet1.activeList [0, 2, 3] ∧
    ((∃ pa', (∀ fuel, PoolArrayRetireAll fuel demoRet1 =
        if [0, 2, 3].length ≤ fuel then some pa' else none) ∧
      (∀ fuel, [0, 2, 3].length ≤ fuel →
        PoolArrayRetireAllTrace fuel demoRet1 = some ([0, 2, 3], pa')) ∧
      pa'.activeList = none) ∧
    (∀ a A', [0, 2, 3] = a :: A' → demoRet1.activeList = some a ∧
      ∃ pa1, PoolArrayRetireNode demoRet1 (some a) = some pa1 ∧
        IsList pa1.nodes pa1.activeList A' ∧ A'.length + 1 = [0, 2, 3].length ∧
        ∀ fuel, PoolArrayRetireAll (fuel + 1) demoRet1 = PoolArrayRetireAll fuel pa1)) :=
  ⟨demoRet1_reachable, by simp [IsList, demoRet1, nextAt],
    C17_retireAll_terminates 1000 8 demoRet1 [0, 2, 3] demoRet1_reachable
      (by simp [IsList, demoRet1, nextAt])⟩

theorem SameData.same (nodes : List PoolArrayNode) : SameData nodes nodes :=
  ⟨rfl, fun _ => rfl⟩

theorem SameData.chain {n1 n2 n3 : List PoolArrayNode} (h12 : SameData n1 n2)
    (h23 : SameData n2 n3) : SameData n1 n3 :=
  ⟨h23.1.trans h12.1, fun i => (h23.2 i).trans (h12.2 i)⟩

theorem setNext_sameData {nodes nodes' : List PoolArrayNode} {p v : Ptr}
    (h : setNext nodes p v = some nodes') : SameData nodes nodes' := by
  unfold setNext at h
  cases p with
  | none => cases h
  | some i =>
    simp only at h
    split at h
    · cases h
      exact ⟨length_writeNext _ _ _, fun j => dataAt_writeNext _ _ j _⟩
    · cases h

theorem setPrev_sameData {nodes nodes' : List PoolArrayNode} {p v : Ptr}
    (h : setPrev nodes p v = some nodes') : SameData nodes nodes' := by
  unfold setPrev at h
  cases p with
  | none => cases h
  | some i =>
    simp only at h
    split at h
    · cases h
      exact ⟨length_writePrev _ _ _, fun j => dataAt_writePrev _ _ j _⟩
    · cases h

theorem DL_APPEND2_sameData {nodes nodes' : List PoolArrayNode} {head add head' : Ptr}
    (h : DL_APPEND2 head add nodes = some (head', nodes')) : SameData nodes nodes' := by
  unfold DL_APPEND2 at h
  cases head with
  | none =>
    simp only [Option.bind_eq_bind, Option.bind_eq_some, Option.pure_def, Option.some.injEq,
      Prod.mk.injEq] at h
    obtain ⟨n1, h1, n2, h2, _, rfl⟩ := h
    exact (setPrev_sameData h1).chain (setNext_sameData h2)
  | some x =>
    simp only [Option.bind_eq_bind, Option.bind_eq_some, Option.pure_def, Option.some.injEq,
      Prod.mk.injEq] at h
    obtain ⟨_, _, n1, h1, _, _, n2, h2, n3, h3, n4, h4, _, rfl⟩ := h
    exact (((setPrev_sameData h1).chain (setNext_sameData h2)).chain
      (setPrev_sameData h3)).chain (setNext_sameData h4)

theorem DL_DELETE2_sameData {nodes nodes' : List PoolArrayNode} {head del head' : Ptr}
    (h : DL_DELETE2 head del nodes = some (head', nodes')) : SameData nodes nodes' := by
  unfold DL_DELETE2 at h
  simp only [Option.bind_eq_bind, Option.bind_eq_some, Option.pure_def] at h
  obtain ⟨d, _, h⟩ := h
  split at h
  · simp only [Option.some.injEq, Prod.mk.injEq] at h
    rw [← h.2]; exact SameData.same _
  · split at h
    · simp only [Option.bind_eq_some, Option.some.injEq, Prod.mk.injEq] at h
      obtain ⟨n1, h1, _, _, _, rfl⟩ := h
      exact setPrev_sameData h1
    · simp only [Option.bind_eq_some] at h
      obtain ⟨n1, h1, d1, _, h⟩ := h
      split at h
      · simp only [Option.bind_eq_some, Option.some.injEq, Prod.mk.injEq] at h
        obtain ⟨n2, h2, _, rfl⟩ := h
        exact (setNext_sameData h1).chain (setPrev_sameData h2)
      · simp only [Option.bind_eq_some, Option.some.injEq, Prod.mk.injEq] at h
        obtain ⟨n2, h2, _, rfl⟩ := h
        exact (setNext_sameData h1).chain (setPrev_sameData h2)

theorem PoolArrayRetireNode_frame {pa pa' : PoolArray} {node : Ptr}
    (h : PoolArrayRetireNode pa node = some pa') :
    pa'.Size = pa.Size ∧ SameData pa.nodes pa'.nodes := by
  unfold PoolArrayRetireNode DL_DELETE DL_APPEND at h
  simp only [Option.bind_eq_bind, Option.bind_eq_some, Option.pure_def, Option.some.injEq] at h
  obtain ⟨⟨act, n1⟩, h1, n2, h2, n3, h3, ⟨av, n4⟩, h4, rfl⟩ := h
  exact ⟨rfl, (((DL_DELETE2_sameData h1).chain (setNext_sameData h2)).chain
    (setPrev_sameData h3)).chain (DL_APPEND2_sameData h4)⟩

theorem PoolArrayGetNextItem_frame {pa pa' : PoolArray} {r : Nat}
    (h : PoolArrayGetNextItem pa = some (r, pa')) :
    pa'.Size = pa.Size ∧ SameData pa.nodes pa'.nodes := by
  unfold PoolArrayGetNextItem DL_DELETE DL_APPEND at h
  split at h
  · simp only [Option.some.injEq, Prod.mk.injEq] at h
    rw [← h.2]; exact ⟨rfl, SameData.same _⟩
  · simp only [Option.bind_eq_bind, Option.bind_eq_some, Option.pure_def, Option.some.injEq,
      Prod.mk.injEq] at h
    obtain ⟨⟨av, n1⟩, h1, n2, h2, n3, h3, ⟨act, n4⟩, h4, nd, _, _, rfl⟩ := h
    exact ⟨rfl, (((DL_DELETE2_sameData h1).chain (setNext_sameData h2)).chain
      (setPrev_sameData h3)).chain (DL_APPEND2_sameData h4)⟩

theorem PoolArrayRetireAll_frame :
    ∀ (fuel : Nat) {pa pa' : PoolArray}, PoolArrayRetireAll fuel pa = some pa' →
      pa'.Size = pa.Size ∧ SameData pa.nodes pa'.nodes := by
  intro fuel
  induction fuel with
  | zero =>
    intro pa pa' h
    unfold PoolArrayRetireAll at h
    cases hh : pa.activeList with
    | none =>
      rw [hh] at h
      cases h
      exact ⟨rfl, SameData.same _⟩
    | some n => rw [hh] at h; cases h
  | succ f ih =>
    intro pa pa' h
    rw [PoolArrayRetireAll] at h
    cases hh : pa.activeList with
    | none =>
      rw [hh] at h
      cases h
      exact ⟨rfl, SameData.same _⟩
    | some n =>
      rw [hh] at h
      simp only [Option.bind_eq_bind, Option.bind_eq_some] at h
      obtain ⟨pa1, h1, h2⟩ := h
      obtain ⟨s1, d1⟩ := PoolArrayRetireNode_frame h1
      obtain ⟨s2, d2⟩ := ih h2
      exact ⟨s2.trans s1, d1.chain d2⟩

/-- C18 (acquire never dereferences an absent node): in every reachable state
`Available` is the number of nodes of the free list, at most `Size`, which is
below `2 ^ 64`; `PoolArrayGetNextItem` never runs into undefined behaviour; when it
passes its guard the head of the free list is a node of the storage, the
decrement of `Available` does not wrap, and when `DL_DELETE` takes its "node is
head" branch the successor of the head is a node of the storage. The increment of
`Available` in `PoolArrayRetireNode` does not wrap either while a node is active. -/
theorem C18_acquire_no_absent_node (array size : Nat) (pa : PoolArray)
    (hr : Reachable array size pa) :
    (∃ F, IsList pa.nodes pa.availableList F ∧ pa.Available = F.length) ∧
    pa.Available ≤ pa.Size ∧ pa.Size < SIZE_MOD ∧
    (∃ r pa', PoolArrayGetNextItem pa = some (r, pa')) ∧
    (¬ pa.Available < 1 → ∃ h nd, pa.availableList = some h ∧
      getNode pa.nodes (some h) = some nd ∧
      (pa.Available + SIZE_MOD - 1) % SIZE_MOD + 1 = pa.Available ∧
      (nd.prev ≠ some h → ∃ m ndm, nd.next = some m ∧
        getNode pa.nodes (some m) = some ndm)) ∧
    (pa.activeList ≠ none → (pa.Available + 1) % SIZE_MOD = pa.Available + 1) := by
  obtain ⟨F, A, hinv⟩ := Reachable_inv hr
  have hlen := hinv.length_add
  have hav := hinv.avail
  have hsz := hinv.size_lt
  refine ⟨⟨F, hinv.free.2.1, hav⟩, by omega, hsz, ?_, ?_, ?_⟩
  · cases F with
    | nil => exact ⟨NULL, pa, getNextItem_exhausted pa hav⟩
    | cons h t =>
      obtain ⟨pa', hget, _⟩ := PoolArrayGetNextItem_spec hinv
      exact ⟨_, pa', hget⟩
  · intro hguard
    cases F with
    | nil =>
      have : pa.Available = 0 := hav
      omega
    | cons h t =>
      obtain ⟨hhead, hprev, _⟩ := DList_cons_head hinv.free
      obtain ⟨_, mm, hmm, hrest⟩ := hinv.free.2.1
      obtain ⟨nd, hget, hndn, hndp⟩ := getNode_links hmm hprev
      have hdec : (pa.Available + SIZE_MOD - 1) % SIZE_MOD + 1 = pa.Available := by
        have e : pa.Available + SIZE_MOD - 1 = (pa.Available - 1) + SIZE_MOD := by omega
        rw [e, Nat.add_mod_right, Nat.mod_eq_of_lt (by omega)]
        omega
      refine ⟨h, nd, hhead, hget, hdec, ?_⟩
      intro hne
      cases t with
      | nil =>
        rw [hndp] at hne
        exact absurd rfl hne
      | cons m t' =>
        obtain ⟨hm, m2, hm2, _⟩ := hrest
        obtain ⟨ndm, hgetm, _⟩ := getNode_next hm2
        exact ⟨m, ndm, by rw [hndn, hm], hgetm⟩
  · intro hact
    apply Nat.mod_eq_of_lt
    cases A with
    | nil => exact absurd hinv.active.2.1 hact
    | cons a A' =>
      simp only [List.length_cons] at hlen
      omega

/-- Witness of C18 on the demo pool after two acquisitions. -/
theorem C18_acquire_no_absent_node_witness :
    Reachable 1000 8 demoAcq2 ∧
    ((∃ F, IsList demoAcq2.nodes demoAcq2.availableList F ∧
        demoAcq2.Available = F.length) ∧
    demoAcq2.Available ≤ demoAcq2.Size ∧ demoAcq2.Size < SIZE_MOD ∧
    (∃ r pa', PoolArrayGetNextItem demoAcq2 = some (r, pa')) ∧
    (¬ demoAcq2.Available < 1 → ∃ h nd, demoAcq2.availableList = some h ∧
      getNode demoAcq2.nodes (some h) = some nd ∧
      (demoAcq2.Available + SIZE_MOD - 1) % SIZE_MOD + 1 = demoAcq2.Available ∧
      (nd.prev ≠ some h → ∃ m ndm, nd.next = some m ∧
        getNode demoAcq2.nodes (some m) = some ndm)) ∧
    (demoAcq2.activeList ≠ none →
      (demoAcq2.Available + 1) % SIZE_MOD = demoAcq2.Available + 1)) :=
  ⟨demoAcq2_reachable, C18_acquire_no_absent_node 1000 8 demoAcq2 demoAcq2_reachable⟩

/-- C19 (fixed node-to-element mapping): `PoolArrayGetNextItem`,
`PoolArrayRetireNode` and `PoolArrayRetireAll`, on any pool on which they complete,
leave `Size`, the size of the storage and the `userData` of every node as they
were; so in every reachable state, `base` being the address of an array of `Size`
elements of `size` bytes (an object inside the address space), the `userData` of
node `i` is still the value `base + i * size` that `PoolArrayInit` set. -/
theorem C19_fixed_mapping (base size : Nat) (pa : PoolArray)
    (hr : Reachable base size pa) :
    (∀ (s s' : PoolArray) (r : Nat), PoolArrayGetNextItem s = some (r, s') →
      s'.Size = s.Size ∧ SameData s.nodes s'.nodes) ∧
    (∀ (s s' : PoolArray) (node : Ptr), PoolArrayRetireNode s node = some s' →
      s'.Size = s.Size ∧ SameData s.nodes s'.nodes) ∧
    (∀ (s s' : PoolArray) (fuel : Nat), PoolArrayRetireAll fuel s = some s' →
      s'.Size = s.Size ∧ SameData s.nodes s'.nodes) ∧
    (base + pa.Size * size ≤ SIZE_MOD →
      ∀ i, i < pa.Size → dataAt pa.nodes i = some (base + i * size)) := by
  refine ⟨fun s s' r h => PoolArrayGetNextItem_frame h,
    fun s s' node h => PoolArrayRetireNode_frame h,
    fun s s' fuel h => PoolArrayRetireAll_frame fuel h, ?_⟩
  obtain ⟨F, A, hinv⟩ := Reachable_inv hr
  intro hfit i hi
  have hd : dataAt pa.nodes i = some ((base + i * size) % SIZE_MOD) := by
    rw [Nat.mul_comm i size]; exact hinv.data i hi
  rw [Nat.mod_eq_of_lt (elem_lt_of_fit (Reachable_base_lt hr) hfit hi)] at hd
  exact hd

/-- Witness of C19 on the demo pool after four acquisitions and one retirement. -/
theorem C19_fixed_mapping_witness :
    Reachable 1000 8 demoRet1 ∧
    ((∀ (s s' : PoolArray) (r : Nat), PoolArrayGetNextItem s = some (r, s') →
      s'.Size = s.Size ∧ SameData s.nodes s'.nodes) ∧
    (∀ (s s' : PoolArray) (node : Ptr), PoolArrayRetireNode s node = some s' →
      s'.Size = s.Size ∧ SameData s.nodes s'.nodes) ∧
    (∀ (s s' : PoolArray) (fuel : Nat), PoolArrayRetireAll fuel s = some s' →
      s'.Size = s.Size ∧ SameData s.nodes s'.nodes) ∧
    (∀ i, i < demoRet1.Size → dataAt demoRet1.nodes i = some (1000 + i * 8))) := by
  obtain ⟨h1, h2, h3, h4⟩ := C19_fixed_mapping 1000 8 demoRet1 demoRet1_reachable
  exact ⟨demoRet1_reachable, h1, h2, h3, h4 (by decide)⟩

end Pool
